import Mathlib

/-!
Verification of the Comment Moderation & Trust Pipeline of the Orin blog
platform, as implemented in
`functions/api/services/moderation.ts`,
`functions/api/services/github-oauth.ts` (trust-level calculator), and
`functions/api/services/comment-tree.ts`.

The TypeScript source is shallowly embedded:

* JavaScript numbers holding scores in [0,1] become `ℚ` (`Rat`); integer
  scores become `Nat`.
* Regex tests against the fixed pattern tables (`MALICIOUS_URL_PATTERNS`,
  `PROFANITY_PATTERNS`, `SPAM_PATTERNS`, the heuristic pattern list, and
  the URL counter) are abstracted as boolean/numeric inputs (`PatternHits`,
  `HeuristicCounts`): every concrete content string induces one valuation
  of these inputs, and every property proved here is proved for all
  valuations.  All string processing whose exact behaviour the claims
  depend on (normalisation, Jaccard similarity, the excessive-caps check)
  is embedded directly over `String`/`List Char`.  `Char.toLower`,
  `Char.isAlpha`, `Char.isUpper` coincide with the JavaScript operations
  on the ASCII inputs used throughout; JS `\s` is modelled by
  `Char.isWhitespace` and JS `\w` by ASCII alphanumerics plus underscore.
* The JS `Map` used by the tree builder is an association list with
  `set`-overwrites semantics; the mutable object graph the builder creates
  (nodes are shared via the id-keyed map and mutated in place) is modelled
  by recording, per id, the pushed children ids and the pushed root ids,
  and then unfolding that graph into an inductive tree with a fuel bound
  that exceeds the depth of any acyclic instance.
-/

/-! ## Data model (`moderation.ts`, `@orin/shared/types`) -/

/-- `ModerationSource` from the shared types: which stage produced a status. -/
inductive ModerationSource where
  | rules | ai | manual | fallback
deriving DecidableEq, Repr

/-- Moderation status values returned by `makeDecision`. -/
inductive ModStatus where
  | approved | rejected | pending
deriving DecidableEq, Repr

/-- `RuleCheckResult` from `moderation.ts`. -/
structure RuleCheckResult where
  ruleScore : Nat
  ruleFlags : List String
  hardRuleTriggered : Bool
deriving DecidableEq, Repr

/-- `AICheckResult` from `moderation.ts`.  `aiScore` is a JS number in
`[0,1]`, embedded as `ℚ`. -/
structure AICheckResult where
  aiScore : ℚ
  aiLabel : String
  success : Bool
  error : Option String := none
deriving DecidableEq, Repr

/-- `ModerationResult` from `moderation.ts`. -/
structure ModerationResult where
  status : ModStatus
  source : ModerationSource
  aiScore : Option ℚ
  aiLabel : Option String
  ruleScore : Nat
  ruleFlags : List String
deriving DecidableEq, Repr

/-! ## Decision thresholds and `makeDecision` (`moderation.ts` lines 532-634) -/

/-- The `THRESHOLDS` constant object from `moderation.ts`. -/
structure Thresholds where
  AUTO_APPROVE_AI_MAX : ℚ
  AUTO_REJECT_AI_MIN : ℚ
  COMBINED_REJECT_AI_MIN : ℚ
  COMBINED_REJECT_RULE_MIN : Nat
  AUTO_APPROVE_TRUST_MIN : Nat

/-- Values of `THRESHOLDS` in `moderation.ts`. -/
def THRESHOLDS : Thresholds :=
  { AUTO_APPROVE_AI_MAX := 0.15
    AUTO_REJECT_AI_MIN := 0.85
    COMBINED_REJECT_AI_MIN := 0.65
    COMBINED_REJECT_RULE_MIN := 3
    AUTO_APPROVE_TRUST_MIN := 2 }

/-- `makeDecision` from `moderation.ts`: ordered decision matrix over the
rule result, the classifier result and the user's trust level (0-3,
embedded as `Nat`). -/
def makeDecision (ruleResult : RuleCheckResult) (aiResult : AICheckResult)
    (trustLevel : Nat) : ModerationResult :=
  let baseScore : Option ℚ := if aiResult.success then some aiResult.aiScore else none
  let baseLabel : Option String := if aiResult.success then some aiResult.aiLabel else none
  -- Step 1: hard rules auto-reject
  if ruleResult.hardRuleTriggered then
    ⟨ModStatus.rejected, ModerationSource.rules, baseScore, baseLabel,
      ruleResult.ruleScore, ruleResult.ruleFlags⟩
  -- Step 2: AI fallback guarantee
  else if !aiResult.success then
    ⟨ModStatus.pending, ModerationSource.fallback, baseScore, baseLabel,
      ruleResult.ruleScore, ruleResult.ruleFlags⟩
  -- Step 3: trusted user auto-approval
  else if trustLevel ≥ THRESHOLDS.AUTO_APPROVE_TRUST_MIN ∧
      ruleResult.ruleScore = 0 ∧
      aiResult.aiScore ≤ THRESHOLDS.AUTO_APPROVE_AI_MAX then
    ⟨ModStatus.approved, ModerationSource.ai, baseScore, baseLabel,
      ruleResult.ruleScore, ruleResult.ruleFlags⟩
  -- Step 4: high AI score auto-reject
  else if aiResult.aiScore ≥ THRESHOLDS.AUTO_REJECT_AI_MIN then
    ⟨ModStatus.rejected, ModerationSource.ai, baseScore, baseLabel,
      ruleResult.ruleScore, ruleResult.ruleFlags⟩
  -- Step 5: combined rule + AI auto-reject
  else if ruleResult.ruleScore ≥ THRESHOLDS.COMBINED_REJECT_RULE_MIN ∧
      aiResult.aiScore ≥ THRESHOLDS.COMBINED_REJECT_AI_MIN then
    ⟨ModStatus.rejected, ModerationSource.ai, baseScore, baseLabel,
      ruleResult.ruleScore, ruleResult.ruleFlags⟩
  -- Step 6: default to pending for manual review
  else
    ⟨ModStatus.pending, ModerationSource.ai, baseScore, baseLabel,
      ruleResult.ruleScore, ruleResult.ruleFlags⟩

/-! ## Trust level calculator (`github-oauth.ts` lines 240-263) -/

/-- `UserCommentStats` from the trust-level calculator service. -/
structure UserCommentStats where
  approvedCount : Nat
  hasRecentRejections : Bool
  isManuallyTrusted : Bool
deriving DecidableEq, Repr

/-- `calculateTrustLevel` from the trust-level calculator service. -/
def calculateTrustLevel (stats : UserCommentStats) : Nat :=
  if stats.isManuallyTrusted then 3
  else if stats.approvedCount = 0 then 0
  else if stats.approvedCount = 1 then 1
  else if stats.approvedCount ≥ 2 ∧ !stats.hasRecentRejections then 2
  else 1

/-- `canAutoApprove` from the trust-level calculator service. -/
def canAutoApprove (trustLevel : Nat) : Bool :=
  trustLevel ≥ 2

/-! ## Claim theorems for the decision engine and the trust calculator -/

/-- C1: hard-rule supremacy.  For every rule result with
`hardRuleTriggered = true`, every classifier result (success or failure,
any score) and every trust level in {0,1,2,3}, `makeDecision` returns
`status = rejected` with `source = rules`. -/
theorem makeDecision_hard_rule_supremacy
    (ruleResult : RuleCheckResult) (aiResult : AICheckResult) (trustLevel : Nat)
    (hHard : ruleResult.hardRuleTriggered = true) (hTrust : trustLevel ≤ 3) :
    (makeDecision ruleResult aiResult trustLevel).status = ModStatus.rejected ∧
    (makeDecision ruleResult aiResult trustLevel).source = ModerationSource.rules := by
  simp [makeDecision, hHard]

/-- Witness for C1 at a concrete input. -/
theorem makeDecision_hard_rule_supremacy_witness :
    (makeDecision ⟨9, ["malicious_link"], true⟩ ⟨0.99, "toxic", true, none⟩ 3).status
      = ModStatus.rejected ∧
    (makeDecision ⟨9, ["malicious_link"], true⟩ ⟨0.99, "toxic", true, none⟩ 3).source
      = ModerationSource.rules :=
  makeDecision_hard_rule_supremacy ⟨9, ["malicious_link"], true⟩
    ⟨0.99, "toxic", true, none⟩ 3 rfl (by omega)

/-- C2: classifier-failure floor.  Whenever the classifier result has
`success = false`, the decision is never `approved`; and if additionally no
hard rule triggered, the decision is exactly `status = pending`,
`source = fallback`. -/
theorem makeDecision_classifier_failure_floor
    (ruleResult : RuleCheckResult) (aiResult : AICheckResult) (trustLevel : Nat)
    (hFail : aiResult.success = false) :
    (ruleResult.hardRuleTriggered = false →
      (makeDecision ruleResult aiResult trustLevel).status = ModStatus.pending ∧
      (makeDecision ruleResult aiResult trustLevel).source = ModerationSource.fallback) ∧
    (makeDecision ruleResult aiResult trustLevel).status ≠ ModStatus.approved := by
  constructor
  · intro hHard
    simp [makeDecision, hFail, hHard]
  · by_cases hHard : ruleResult.hardRuleTriggered <;>
      simp [makeDecision, hFail, hHard]

/-- Witness for C2 at a concrete input. -/
theorem makeDecision_classifier_failure_floor_witness :
    (makeDecision ⟨0, [], false⟩ ⟨0, "unknown", false, some "AI service timeout"⟩ 3).status
      = ModStatus.pending ∧
    (makeDecision ⟨0, [], false⟩ ⟨0, "unknown", false, some "AI service timeout"⟩ 3).source
      = ModerationSource.fallback :=
  (makeDecision_classifier_failure_floor ⟨0, [], false⟩
    ⟨0, "unknown", false, some "AI service timeout"⟩ 3 rfl).1 rfl

/-- C3: trust-gated auto-approval.  With a successful classifier result, no
hard rule, `ruleScore = 0` and `aiScore ≤ 0.15`: trust level 2 or 3 yields
`{approved, ai}`, while trust level 0 or 1 with the same other inputs
yields `pending` (not approved). -/
theorem makeDecision_trust_gated_approval
    (ruleResult : RuleCheckResult) (aiResult : AICheckResult) (trustLevel : Nat)
    (hOk : aiResult.success = true) (hHard : ruleResult.hardRuleTriggered = false)
    (hRule : ruleResult.ruleScore = 0)
    (hAi : aiResult.aiScore ≤ 0.15) :
    (trustLevel = 2 ∨ trustLevel = 3 →
      (makeDecision ruleResult aiResult trustLevel).status = ModStatus.approved ∧
      (makeDecision ruleResult aiResult trustLevel).source = ModerationSource.ai) ∧
    (trustLevel = 0 ∨ trustLevel = 1 →
      (makeDecision ruleResult aiResult trustLevel).status = ModStatus.pending ∧
      (makeDecision ruleResult aiResult trustLevel).status ≠ ModStatus.approved) := by
  have hAi15 : aiResult.aiScore ≤ THRESHOLDS.AUTO_APPROVE_AI_MAX := hAi
  constructor
  · intro hT
    have hT2 : trustLevel ≥ THRESHOLDS.AUTO_APPROVE_TRUST_MIN := by
      rcases hT with h | h <;> simp [THRESHOLDS, h]
    simp [makeDecision, hOk, hHard, hT2, hRule, hAi15]
  · intro hT
    have hT2 : ¬ (trustLevel ≥ THRESHOLDS.AUTO_APPROVE_TRUST_MIN) := by
      rcases hT with h | h <;> simp [THRESHOLDS, h]
    have hNotReject : ¬ (aiResult.aiScore ≥ THRESHOLDS.AUTO_REJECT_AI_MIN) := by
      simp only [THRESHOLDS, not_le]
      calc aiResult.aiScore ≤ 0.15 := hAi
        _ < 0.85 := by norm_num
    have hNotComb : ¬ (ruleResult.ruleScore ≥ THRESHOLDS.COMBINED_REJECT_RULE_MIN ∧
        aiResult.aiScore ≥ THRESHOLDS.COMBINED_REJECT_AI_MIN) := by
      rintro ⟨h3, _⟩
      rw [hRule] at h3
      simp [THRESHOLDS] at h3
    simp [makeDecision, hOk, hHard, hT2, hNotReject, hNotComb]

/-- Witness for C3 at concrete inputs (trust level 2 approves, trust level
1 stays pending). -/
theorem makeDecision_trust_gated_approval_witness :
    ((makeDecision ⟨0, [], false⟩ ⟨0.1, "safe", true, none⟩ 2).status = ModStatus.approved ∧
      (makeDecision ⟨0, [], false⟩ ⟨0.1, "safe", true, none⟩ 2).source = ModerationSource.ai) ∧
    ((makeDecision ⟨0, [], false⟩ ⟨0.1, "safe", true, none⟩ 1).status = ModStatus.pending ∧
      (makeDecision ⟨0, [], false⟩ ⟨0.1, "safe", true, none⟩ 1).status ≠ ModStatus.approved) :=
  ⟨(makeDecision_trust_gated_approval ⟨0, [], false⟩ ⟨0.1, "safe", true, none⟩ 2
      rfl rfl rfl (by norm_num)).1 (Or.inl rfl),
    (makeDecision_trust_gated_approval ⟨0, [], false⟩ ⟨0.1, "safe", true, none⟩ 1
      rfl rfl rfl (by norm_num)).2 (Or.inr rfl)⟩

/-- C6: trust level table.  `calculateTrustLevel` always lands in
{0,1,2,3}; manual trust forces 3; otherwise the approved-count /
recent-rejection table applies with top-to-bottom precedence. -/
theorem calculateTrustLevel_table (stats : UserCommentStats) :
    calculateTrustLevel stats ≤ 3 ∧
    (stats.isManuallyTrusted = true → calculateTrustLevel stats = 3) ∧
    (stats.isManuallyTrusted = false → stats.approvedCount = 0 →
      calculateTrustLevel stats = 0) ∧
    (stats.isManuallyTrusted = false → stats.approvedCount = 1 →
      calculateTrustLevel stats = 1) ∧
    (stats.isManuallyTrusted = false → stats.approvedCount ≥ 2 →
      stats.hasRecentRejections = false → calculateTrustLevel stats = 2) ∧
    (stats.isManuallyTrusted = false → stats.approvedCount ≥ 2 →
      stats.hasRecentRejections = true → calculateTrustLevel stats = 1) := by
  refine ⟨?_, ?_, ?_, ?_, ?_, ?_⟩
  · simp only [calculateTrustLevel]
    split_ifs <;> omega
  · intro hm
    simp [calculateTrustLevel, hm]
  · intro hm h
    simp [calculateTrustLevel, hm, h]
  · intro hm h
    simp [calculateTrustLevel, hm, h]
  · intro hm h hr
    simp only [calculateTrustLevel, hm, hr, Bool.not_false, and_true, Bool.false_eq_true,
      if_false]
    split_ifs <;> omega
  · intro hm h hr
    simp only [calculateTrustLevel, hm, hr, Bool.not_true, and_false, Bool.false_eq_true,
      if_false]
    split_ifs <;> omega

/-- Witness for C6 at concrete inputs: the spec's two examples (new user
gets level 0; five approvals but a recent rejection gets level 1). -/
theorem calculateTrustLevel_table_witness :
    calculateTrustLevel ⟨0, false, false⟩ = 0 ∧
    calculateTrustLevel ⟨5, true, false⟩ = 1 :=
  ⟨(calculateTrustLevel_table ⟨0, false, false⟩).2.2.1 rfl rfl,
    (calculateTrustLevel_table ⟨5, true, false⟩).2.2.2.2.2 rfl (by decide) rfl⟩

/-! ## Rule detectors (`moderation.ts` lines 115-296)

The regex tests against the fixed pattern tables are abstracted as
boolean/numeric inputs collected in `PatternHits`: `malicious` records
whether any `MALICIOUS_URL_PATTERNS` entry matched (the source `break`s
after the first match, so a single flag is pushed), `urlCount` records
`content.match(/https?:\/\/[^\s]+/g)?.length ?? 0`, and `profanity` /
`spam` record whether any `PROFANITY_PATTERNS` / `SPAM_PATTERNS` entry
matched.  The excessive-caps check and the duplicate/similarity check are
embedded in full. -/

/-- Outcomes of the regex tests run by the detectors over a given content
string. -/
structure PatternHits where
  malicious : Bool
  urlCount : Nat
  profanity : Bool
  spam : Bool
deriving DecidableEq, Repr

/-- `checkMaliciousLinks` from `moderation.ts`: one `malicious_link` flag
if any malicious pattern matched, plus `excessive_links` when the content
contains more than 3 URLs. -/
def checkMaliciousLinks (hits : PatternHits) : List String :=
  (if hits.malicious then ["malicious_link"] else []) ++
    (if hits.urlCount > 3 then ["excessive_links"] else [])

/-- `checkProfanity` from `moderation.ts`. -/
def checkProfanity (hits : PatternHits) : List String :=
  if hits.profanity then ["profanity"] else []

/-- `checkSpamPatterns` from `moderation.ts`. -/
def checkSpamPatterns (hits : PatternHits) : List String :=
  if hits.spam then ["spam_pattern"] else []

/-- `checkExcessiveCaps` from `moderation.ts`: only evaluated on content
with at least 20 characters and at least 10 letters; flags when uppercase
letters exceed 70% of the letters. -/
def checkExcessiveCaps (content : String) : List String :=
  if content.length ≥ 20 then
    let letters := content.data.filter Char.isAlpha
    if letters.length ≥ 10 then
      let upperCount := (letters.filter Char.isUpper).length
      if ((upperCount : ℚ) / (letters.length : ℚ)) > 0.7 then ["excessive_caps"]
      else []
    else []
  else []

/-- One maximal whitespace run was replaced by a single `' '` by
`.replace(/\s+/g, ' ')`; after mapping every whitespace character to `' '`
this amounts to collapsing consecutive spaces. -/
def collapseSpaceRuns : List Char → List Char
  | [] => []
  | [c] => [c]
  | a :: b :: rest =>
    if a = ' ' ∧ b = ' ' then collapseSpaceRuns (b :: rest)
    else a :: collapseSpaceRuns (b :: rest)

/-- JS `\w` (`[A-Za-z0-9_]`). -/
def isWordChar (c : Char) : Bool :=
  c.isAlphanum || c = '_'

/-- `normalizeContent` from `moderation.ts`:
`content.toLowerCase().replace(/\s+/g, ' ').replace(/[^\w\s]/g, '').trim()`.
After the first replace the only whitespace left is `' '`, so the second
replace keeps word characters and spaces, and `trim` strips leading and
trailing spaces. -/
def normalizeContent (content : String) : String :=
  let lowered := content.data.map Char.toLower
  let collapsed := collapseSpaceRuns (lowered.map (fun c => if c.isWhitespace then ' ' else c))
  let stripped := collapsed.filter (fun c => isWordChar c || c = ' ')
  String.mk (((stripped.dropWhile (· = ' ')).reverse.dropWhile (· = ' ')).reverse)

/-- JS `String.prototype.split(' ')`: split at every single space,
keeping empty pieces. -/
def splitOnSpace (cs : List Char) (acc : List Char) : List String :=
  match cs with
  | [] => [String.mk acc.reverse]
  | c :: rest =>
    if c = ' ' then String.mk acc.reverse :: splitOnSpace rest []
    else splitOnSpace rest (c :: acc)

/-- The word set built by `calculateSimilarity`:
`new Set(s.split(' ').filter((w) => w.length > 2))`, as a duplicate-free
list in first-occurrence order. -/
def wordSet (s : String) : List String :=
  ((splitOnSpace s.data []).filter (fun w => w.length > 2)).foldl
    (fun acc w => if w ∈ acc then acc else acc ++ [w]) []

/-- `calculateSimilarity` from `moderation.ts`: word-set Jaccard index of
the two normalised strings (words of more than 2 characters only). -/
def calculateSimilarity (a b : String) : ℚ :=
  let wordsA := wordSet a
  let wordsB := wordSet b
  if wordsA.length = 0 ∧ wordsB.length = 0 then 1
  else if wordsA.length = 0 ∨ wordsB.length = 0 then 0
  else
    let intersection := wordsA.filter (fun x => x ∈ wordsB)
    let union := (wordsA ++ wordsB).foldl
      (fun acc w => if w ∈ acc then acc else acc ++ [w]) []
    (intersection.length : ℚ) / (union.length : ℚ)

/-- The loop body of `checkDuplicateContent`: scan `recentContents` in
order; `break` with `duplicate_content` on an exact normalised match, or
with `similar_content` when the Jaccard similarity exceeds 0.8. -/
def checkDuplicateLoop (normalized : String) : List String → List String
  | [] => []
  | recent :: rest =>
    let recentNormalized := normalizeContent recent
    if normalized = recentNormalized then ["duplicate_content"]
    else if calculateSimilarity normalized recentNormalized > 0.8 then ["similar_content"]
    else checkDuplicateLoop normalized rest

/-- `checkDuplicateContent` from `moderation.ts`. -/
def checkDuplicateContent (content : String) (recentContents : List String) : List String :=
  checkDuplicateLoop (normalizeContent content) recentContents

/-- The `flagScores` table from `checkHardRules`; an unrecognized flag
scores 1 (`flagScores[flag] || 1`). -/
def flagScore (flag : String) : Nat :=
  if flag = "malicious_link" then 5
  else if flag = "profanity" then 3
  else if flag = "spam_pattern" then 3
  else if flag = "excessive_caps" then 1
  else if flag = "excessive_links" then 2
  else if flag = "duplicate_content" then 4
  else if flag = "similar_content" then 2
  else 1

/-- The `hardRuleFlags` list from `checkHardRules`. -/
def hardRuleFlags : List String :=
  ["malicious_link", "duplicate_content"]

/-- JS `[...new Set(list)]`: deduplicate keeping first occurrences. -/
def jsSetDedup (seen : List String) : List String → List String
  | [] => []
  | x :: xs =>
    if x ∈ seen then jsSetDedup seen xs
    else x :: jsSetDedup (x :: seen) xs

/-- `checkHardRules` from `moderation.ts`: run all detectors, sum the flag
scores, deduplicate the flags, and trigger the hard rule when any flag is
in `hardRuleFlags`. -/
def checkHardRules (hits : PatternHits) (content : String)
    (recentContents : List String) : RuleCheckResult :=
  let allFlags :=
    checkMaliciousLinks hits ++ checkProfanity hits ++ checkSpamPatterns hits ++
      checkExcessiveCaps content ++ checkDuplicateContent content recentContents
  let ruleScore := allFlags.foldl (fun acc flag => acc + flagScore flag) 0
  let hardRuleTriggered := allFlags.any (fun flag => hardRuleFlags.contains flag)
  { ruleScore := ruleScore
    ruleFlags := jsSetDedup [] allFlags
    hardRuleTriggered := hardRuleTriggered }

/-! ## Claim C4: rule scoring -/

/-- Folding the score accumulator over a flag list adds the summed flag
scores. -/
theorem foldl_flagScore (l : List String) (n : Nat) :
    l.foldl (fun acc flag => acc + flagScore flag) n = n + (l.map flagScore).sum := by
  induction l generalizing n with
  | nil => simp
  | cons x xs ih => simp [ih]; omega

/-- Membership in the JS-set deduplication. -/
theorem mem_jsSetDedup (l : List String) (seen : List String) (x : String) :
    x ∈ jsSetDedup seen l ↔ x ∈ l ∧ x ∉ seen := by
  induction l generalizing seen with
  | nil => simp [jsSetDedup]
  | cons y ys ih =>
    simp only [jsSetDedup]
    split
    · rename_i hy
      rw [ih]
      constructor
      · rintro ⟨h1, h2⟩
        exact ⟨List.mem_cons_of_mem _ h1, h2⟩
      · rintro ⟨h1, h2⟩
        rcases List.mem_cons.1 h1 with rfl | h1
        · exact absurd hy h2
        · exact ⟨h1, h2⟩
    · rename_i hy
      constructor
      · intro hx
        rcases List.mem_cons.1 hx with rfl | hx
        · exact ⟨List.mem_cons_self _ _, hy⟩
        · obtain ⟨h1, h2⟩ := (ih (y :: seen)).1 hx
          exact ⟨List.mem_cons_of_mem _ h1, fun hs => h2 (List.mem_cons_of_mem _ hs)⟩
      · rintro ⟨h1, h2⟩
        rcases List.mem_cons.1 h1 with rfl | h1
        · exact List.mem_cons_self _ _
        · by_cases hxy : x = y
          · subst hxy
            exact List.mem_cons_self _ _
          · refine List.mem_cons_of_mem _ ((ih (y :: seen)).2 ⟨h1, fun hs => ?_⟩)
            rcases List.mem_cons.1 hs with h | h
            · exact hxy h
            · exact h2 h

/-- Deduplicating a duplicate-free list disjoint from `seen` is the
identity. -/
theorem jsSetDedup_eq_self (l : List String) (seen : List String)
    (hl : l.Nodup) (hseen : ∀ x ∈ l, x ∉ seen) : jsSetDedup seen l = l := by
  induction l generalizing seen with
  | nil => simp [jsSetDedup]
  | cons y ys ih =>
    have hy : y ∉ seen := hseen y (List.mem_cons_self _ _)
    simp only [jsSetDedup, if_neg hy]
    congr 1
    refine ih (y :: seen) (List.Nodup.of_cons hl) ?_
    intro x hx hs
    rcases List.mem_cons.1 hs with rfl | hs
    · exact (List.nodup_cons.1 hl).1 hx
    · exact hseen x (List.mem_cons_of_mem _ hx) hs

/-- The excessive-caps detector returns nothing or the single
`excessive_caps` flag. -/
theorem checkExcessiveCaps_cases (content : String) :
    checkExcessiveCaps content = [] ∨ checkExcessiveCaps content = ["excessive_caps"] := by
  simp only [checkExcessiveCaps]
  split
  · split
    · split
      · right
        rfl
      · left
        rfl
    · left
      rfl
  · left
    rfl

/-- The duplicate-content loop returns nothing, the single
`duplicate_content` flag, or the single `similar_content` flag. -/
theorem checkDuplicateLoop_cases (normalized : String) (rs : List String) :
    checkDuplicateLoop normalized rs = [] ∨
    checkDuplicateLoop normalized rs = ["duplicate_content"] ∨
    checkDuplicateLoop normalized rs = ["similar_content"] := by
  induction rs with
  | nil => simp [checkDuplicateLoop]
  | cons r rest ih =>
    simp only [checkDuplicateLoop]
    split_ifs <;> simp [ih]

/-- The concatenated flag list assembled by `checkHardRules` never repeats
a flag: each detector pushes each of its flags at most once and the
detectors' flag names are pairwise distinct. -/
theorem checkHardRules_allFlags_nodup (hits : PatternHits) (content : String)
    (recentContents : List String) :
    (checkMaliciousLinks hits ++ checkProfanity hits ++ checkSpamPatterns hits ++
      checkExcessiveCaps content ++ checkDuplicateContent content recentContents).Nodup := by
  unfold checkDuplicateContent
  rcases checkExcessiveCaps_cases content with hc | hc <;>
    rcases checkDuplicateLoop_cases (normalizeContent content) recentContents with hd | hd | hd <;>
    rw [hc, hd] <;>
    unfold checkMaliciousLinks checkProfanity checkSpamPatterns <;>
    split_ifs <;>
    decide

/-- C4: rule scoring.  For every pattern valuation, content and recent
history, `checkHardRules` returns a `ruleScore` equal to the sum of the
fixed per-flag weights over the triggered flags, returns the flags
deduplicated, and sets `hardRuleTriggered` exactly when `malicious_link`
or `duplicate_content` is among them; the weight table is
malicious_link 5, duplicate_content 4, profanity 3, spam_pattern 3,
similar_content 2, excessive_links 2, excessive_caps 1, and any other flag
scores 1. -/
theorem checkHardRules_scoring (hits : PatternHits) (content : String)
    (recentContents : List String) :
    (checkHardRules hits content recentContents).ruleScore =
      ((checkHardRules hits content recentContents).ruleFlags.map flagScore).sum ∧
    (checkHardRules hits content recentContents).ruleFlags.Nodup ∧
    ((checkHardRules hits content recentContents).hardRuleTriggered = true ↔
      "malicious_link" ∈ (checkHardRules hits content recentContents).ruleFlags ∨
      "duplicate_content" ∈ (checkHardRules hits content recentContents).ruleFlags) ∧
    flagScore "malicious_link" = 5 ∧ flagScore "duplicate_content" = 4 ∧
    flagScore "profanity" = 3 ∧ flagScore "spam_pattern" = 3 ∧
    flagScore "similar_content" = 2 ∧ flagScore "excessive_links" = 2 ∧
    flagScore "excessive_caps" = 1 ∧
    (∀ f, f ∉ ["malicious_link", "profanity", "spam_pattern", "excessive_caps",
        "excessive_links", "duplicate_content", "similar_content"] → flagScore f = 1) := by
  have hnd := checkHardRules_allFlags_nodup hits content recentContents
  have hdedup :
      jsSetDedup []
        (checkMaliciousLinks hits ++ checkProfanity hits ++ checkSpamPatterns hits ++
          checkExcessiveCaps content ++ checkDuplicateContent content recentContents) =
      checkMaliciousLinks hits ++ checkProfanity hits ++ checkSpamPatterns hits ++
        checkExcessiveCaps content ++ checkDuplicateContent content recentContents :=
    jsSetDedup_eq_self _ [] hnd (by simp)
  refine ⟨?_, ?_, ?_, by decide, by decide, by decide, by decide, by decide, by decide,
    by decide, ?_⟩
  · simp only [checkHardRules, hdedup, foldl_flagScore, Nat.zero_add]
  · simpa only [checkHardRules, hdedup] using hnd
  · simp only [checkHardRules, hdedup, List.any_eq_true, hardRuleFlags,
      List.elem_iff, List.mem_cons, List.mem_singleton, List.not_mem_nil,
      or_false, decide_eq_true_eq]
    constructor
    · rintro ⟨f, hf, rfl | rfl⟩
      · exact Or.inl hf
      · exact Or.inr hf
    · rintro (hf | hf)
      · exact ⟨_, hf, Or.inl rfl⟩
      · exact ⟨_, hf, Or.inr rfl⟩
  · intro f hf
    simp only [List.mem_cons, List.not_mem_nil, or_false, not_or] at hf
    obtain ⟨h1, h2, h3, h4, h5, h6, h7⟩ := hf
    simp [flagScore, h1, h2, h3, h4, h5, h6, h7]

/-- Witness for C4 (for the inner universally-quantified implication about
unrecognized flags) at a concrete input: a clean short content with one
profanity hit. -/
theorem checkHardRules_scoring_witness :
    (checkHardRules ⟨false, 0, true, false⟩ "ok" []).ruleScore =
      (((checkHardRules ⟨false, 0, true, false⟩ "ok" []).ruleFlags).map flagScore).sum ∧
    flagScore "weird_flag" = 1 :=
  ⟨(checkHardRules_scoring ⟨false, 0, true, false⟩ "ok" []).1,
    (checkHardRules_scoring ⟨false, 0, true, false⟩ "ok" []).2.2.2.2.2.2.2.2.2.2
      "weird_flag" (by decide)⟩

/-! ## Claim C5: duplicate-check traversal

The loop in `checkDuplicateContent` `break`s at the first entry that is an
exact normalised match (flagging `duplicate_content`) or whose Jaccard
similarity exceeds 0.8 (flagging `similar_content`).  It does not keep
scanning for a later exact match, so an entry with the same normalisation
as the content is missed when an earlier entry already crossed the
similarity threshold. -/

/-- Counterexample to C5 as stated: the second recent entry is an exact
copy of the content, but the first entry is 5/6-similar, so the loop stops
there and `duplicate_content` is never flagged. -/
theorem checkDuplicateContent_later_duplicate_missed :
    normalizeContent "alpha beta gamma delta epsilon" ∈
      (["alpha beta gamma delta epsilon zeta",
        "alpha beta gamma delta epsilon"].map normalizeContent) ∧
    "duplicate_content" ∉ checkDuplicateContent "alpha beta gamma delta epsilon"
      ["alpha beta gamma delta epsilon zeta", "alpha beta gamma delta epsilon"] := by
  have e0 : normalizeContent "alpha beta gamma delta epsilon" =
      "alpha beta gamma delta epsilon" := by decide
  have e1 : normalizeContent "alpha beta gamma delta epsilon zeta" =
      "alpha beta gamma delta epsilon zeta" := by decide
  have hA : wordSet "alpha beta gamma delta epsilon" =
      ["alpha", "beta", "gamma", "delta", "epsilon"] := by decide
  have hB : wordSet "alpha beta gamma delta epsilon zeta" =
      ["alpha", "beta", "gamma", "delta", "epsilon", "zeta"] := by decide
  have hI : ((["alpha", "beta", "gamma", "delta", "epsilon"] : List String).filter
      (fun x => x ∈ (["alpha", "beta", "gamma", "delta", "epsilon", "zeta"] : List String))).length
        = 5 := by decide
  have hU : (((["alpha", "beta", "gamma", "delta", "epsilon"] : List String) ++
      ["alpha", "beta", "gamma", "delta", "epsilon", "zeta"]).foldl
      (fun acc w => if w ∈ acc then acc else acc ++ [w]) []).length = 6 := by decide
  have hsim : calculateSimilarity "alpha beta gamma delta epsilon"
      "alpha beta gamma delta epsilon zeta" > 0.8 := by
    simp only [calculateSimilarity, hA, hB, hI, hU]
    norm_num
  have hne : ("alpha beta gamma delta epsilon" : String) ≠
      "alpha beta gamma delta epsilon zeta" := by decide
  have heval : checkDuplicateContent "alpha beta gamma delta epsilon"
      ["alpha beta gamma delta epsilon zeta", "alpha beta gamma delta epsilon"] =
      ["similar_content"] := by
    simp only [checkDuplicateContent, checkDuplicateLoop, e0, e1]
    rw [if_neg hne, if_pos hsim]
  refine ⟨by decide, ?_⟩
  rw [heval]
  decide

/-- C5 (amended): the duplicate/similar scan stops at the first entry that
is an exact normalised match or exceeds the 0.8 similarity threshold.
Whenever an entry of `recentContents` has the same normalisation as the
content and every earlier entry is neither an exact match nor similar, the
check returns exactly the `duplicate_content` flag. -/
theorem checkDuplicateContent_exact_match_first_hit (content : String)
    (pre : List String) (r : String) (post : List String)
    (hpre : ∀ r' ∈ pre, normalizeContent content ≠ normalizeContent r' ∧
      ¬(calculateSimilarity (normalizeContent content) (normalizeContent r') > 0.8))
    (hexact : normalizeContent content = normalizeContent r) :
    checkDuplicateContent content (pre ++ r :: post) = ["duplicate_content"] := by
  unfold checkDuplicateContent
  induction pre with
  | nil =>
    simp only [List.nil_append, checkDuplicateLoop]
    rw [if_pos hexact]
  | cons p ps ih =>
    obtain ⟨hne, hns⟩ := hpre p (List.mem_cons_self _ _)
    simp only [List.cons_append, checkDuplicateLoop]
    rw [if_neg hne, if_neg hns]
    exact ih (fun r' hr' => hpre r' (List.mem_cons_of_mem _ hr'))

/-- Witness for the amended C5 at a concrete input: an immediate exact
duplicate is flagged. -/
theorem checkDuplicateContent_exact_match_first_hit_witness :
    checkDuplicateContent "hello world" ["hello world"] = ["duplicate_content"] :=
  checkDuplicateContent_exact_match_first_hit "hello world" [] "hello world" []
    (by simp) rfl

/-! ## Heuristic fallback and the moderation pipeline
(`moderation.ts` lines 495-522 and 649-670)

The five heuristic regexes are abstracted by their match counts (JS
`content.match(p)` returns `null` or a non-empty array, so count 0 stands
for `null`).  The classifier adapter handle in `moderate` is abstracted as
an optional function from content to a classifier result; `moderate` with
`none` takes the heuristics branch of the source. -/

/-- Match counts of the five `suspiciousPatterns` entries of
`checkWithHeuristics` over a given content string (promotion keywords,
http/www, `[!?]{3,}` runs, dollar amounts, urgency phrases). -/
structure HeuristicCounts where
  promo : Nat
  link : Nat
  bursts : Nat
  money : Nat
  urgency : Nat
deriving DecidableEq, Repr

/-- `checkWithHeuristics` from `moderation.ts`: per-pattern additive
weights, each contribution capped at 0.3, the total capped at 1.0; always
succeeds. -/
def checkWithHeuristics (counts : HeuristicCounts) : AICheckResult :=
  let pats : List (Nat × ℚ) :=
    [(counts.promo, 0.1), (counts.link, 0.05), (counts.bursts, 0.1),
      (counts.money, 0.15), (counts.urgency, 0.2)]
  let score := pats.foldl
    (fun s p => if p.1 > 0 then s + min ((p.1 : ℚ) * p.2) 0.3 else s) 0
  let capped := min score 1
  { aiScore := capped
    aiLabel := if capped > 0.5 then "suspicious" else "likely_safe"
    success := true
    error := none }

/-- `moderate` from `moderation.ts`: hard rules, then the classifier when
a handle is present or the heuristics when it is `null`, then the decision
matrix. -/
def moderate (hits : PatternHits) (counts : HeuristicCounts) (content : String)
    (trustLevel : Nat) (recentContents : List String)
    (ai : Option (String → AICheckResult)) : ModerationResult :=
  let ruleResult := checkHardRules hits content recentContents
  let aiResult := match ai with
    | some call => call content
    | none => checkWithHeuristics counts
  makeDecision ruleResult aiResult trustLevel

/-- Every flag weight is at least 1. -/
theorem one_le_flagScore (f : String) : 1 ≤ flagScore f := by
  unfold flagScore
  split_ifs <;> omega

/-- A zero rule score forces an empty flag list, hence no hard rule. -/
theorem checkHardRules_score_zero_no_hard_rule (hits : PatternHits) (content : String)
    (recentContents : List String)
    (h : (checkHardRules hits content recentContents).ruleScore = 0) :
    (checkHardRules hits content recentContents).hardRuleTriggered = false := by
  revert h
  simp only [checkHardRules, foldl_flagScore, Nat.zero_add]
  intro h
  have hall : ∀ x ∈ (checkMaliciousLinks hits ++ checkProfanity hits ++
      checkSpamPatterns hits ++ checkExcessiveCaps content ++
      checkDuplicateContent content recentContents).map flagScore, x = 0 :=
    List.sum_eq_zero_iff.mp h
  have hempty : checkMaliciousLinks hits ++ checkProfanity hits ++
      checkSpamPatterns hits ++ checkExcessiveCaps content ++
      checkDuplicateContent content recentContents = [] := by
    by_contra hne
    obtain ⟨f, hf⟩ := List.exists_mem_of_ne_nil _ hne
    have := hall (flagScore f) (List.mem_map_of_mem _ hf)
    have := one_le_flagScore f
    omega
  rw [hempty]
  rfl

/-- The foldl accumulating heuristic pattern contributions preserves
non-negativity when all weights are non-negative. -/
theorem heuristic_foldl_nonneg (l : List (Nat × ℚ)) (hw : ∀ p ∈ l, 0 ≤ p.2) :
    ∀ s : ℚ, 0 ≤ s →
      0 ≤ l.foldl (fun s p => if p.1 > 0 then s + min ((p.1 : ℚ) * p.2) 0.3 else s) s := by
  induction l with
  | nil => intro s hs; simpa using hs
  | cons p ps ih =>
    intro s hs
    simp only [List.foldl_cons]
    refine ih (fun q hq => hw q (List.mem_cons_of_mem _ hq)) _ ?_
    split_ifs with hp
    · have hw0 : 0 ≤ p.2 := hw p (List.mem_cons_self _ _)
      have : (0 : ℚ) ≤ min ((p.1 : ℚ) * p.2) 0.3 := by
        refine le_min (by positivity) (by norm_num)
      linarith
    · exact hs

/-- C9: heuristic fallback reaches verdicts.  For every match-count
valuation, `checkWithHeuristics` succeeds with a score in [0,1];
`moderate` with a `null` classifier handle substitutes the heuristic
result (so the "not configured" failure never arises); and with trust
level at least 2, zero rule score and heuristic score at most 0.15, the
comment is approved with source `ai` without any external classifier. -/
theorem checkWithHeuristics_reaches_verdicts (counts : HeuristicCounts) :
    (checkWithHeuristics counts).success = true ∧
    0 ≤ (checkWithHeuristics counts).aiScore ∧
    (checkWithHeuristics counts).aiScore ≤ 1 ∧
    (∀ (hits : PatternHits) (content : String) (trustLevel : Nat)
        (recentContents : List String),
      moderate hits counts content trustLevel recentContents none =
        makeDecision (checkHardRules hits content recentContents)
          (checkWithHeuristics counts) trustLevel) ∧
    (∀ (hits : PatternHits) (content : String) (trustLevel : Nat)
        (recentContents : List String),
      trustLevel ≥ 2 →
      (checkHardRules hits content recentContents).ruleScore = 0 →
      (checkWithHeuristics counts).aiScore ≤ 0.15 →
      (moderate hits counts content trustLevel recentContents none).status =
        ModStatus.approved ∧
      (moderate hits counts content trustLevel recentContents none).source =
        ModerationSource.ai) := by
  have hnn : 0 ≤ (checkWithHeuristics counts).aiScore := by
    simp only [checkWithHeuristics]
    refine le_min ?_ (by norm_num)
    refine heuristic_foldl_nonneg _ ?_ 0 le_rfl
    intro p hp
    simp only [List.mem_cons, List.not_mem_nil, or_false] at hp
    rcases hp with rfl | rfl | rfl | rfl | rfl <;> norm_num
  refine ⟨rfl, hnn, ?_, fun _ _ _ _ => rfl, ?_⟩
  · simp only [checkWithHeuristics]
    exact min_le_right _ _
  · intro hits content trustLevel recentContents hTrust hRule hScore
    have hHard := checkHardRules_score_zero_no_hard_rule hits content recentContents hRule
    have hSucc : (checkWithHeuristics counts).success = true := rfl
    have hcond : trustLevel ≥ THRESHOLDS.AUTO_APPROVE_TRUST_MIN ∧
        (checkHardRules hits content recentContents).ruleScore = 0 ∧
        (checkWithHeuristics counts).aiScore ≤ THRESHOLDS.AUTO_APPROVE_AI_MAX :=
      ⟨hTrust, hRule, hScore⟩
    constructor <;> simp [moderate, makeDecision, hHard, hSucc, hcond]

/-- Witness for C9 at a concrete input: clean short content, no heuristic
matches, trust level 2 — approved without a classifier. -/
theorem checkWithHeuristics_reaches_verdicts_witness :
    (moderate ⟨false, 0, false, false⟩ ⟨0, 0, 0, 0, 0⟩ "ok" 2 [] none).status =
      ModStatus.approved ∧
    (moderate ⟨false, 0, false, false⟩ ⟨0, 0, 0, 0, 0⟩ "ok" 2 [] none).source =
      ModerationSource.ai :=
  (checkWithHeuristics_reaches_verdicts ⟨0, 0, 0, 0, 0⟩).2.2.2.2
    ⟨false, 0, false, false⟩ "ok" 2 [] (le_refl 2) (by decide)
    (by norm_num [checkWithHeuristics, min_def])

/-! ## Claim C10: classifier timeout (`moderation.ts` lines 299-301, 399-414)

`checkWithEnhancedAI` creates an `AbortController` and schedules
`controller.abort()` after `AI_TIMEOUT_MS` (5000 ms), but the options
object it passes to `ai.run` contains only `prompt`, `max_tokens` and
`temperature` — `controller.signal` is never attached to the request, so
firing the abort cannot cancel the awaited call and the 5-second bound is
not enforced.  The definitions below record the call-site options object
verbatim. -/

/-- `AI_TIMEOUT_MS` from `moderation.ts`. -/
def AI_TIMEOUT_MS : Nat := 5000

/-- The shape of an options object passed to the classifier binding's
`run` method; `signal` records an attached request-scoped cancellation
signal when present. -/
structure AiRunOptions where
  prompt : String
  max_tokens : Nat
  temperature : ℚ
  signal : Option Unit
deriving DecidableEq, Repr

/-- The options object literal built at the `ai.run` call site inside
`checkWithEnhancedAI` (`moderation.ts` lines 408-412): exactly `prompt`,
`max_tokens: 200` and `temperature: 0.1`, with no cancellation signal
attached. -/
def enhancedAIRunOptions (prompt : String) : AiRunOptions :=
  { prompt := prompt
    max_tokens := 200
    temperature := 0.1
    signal := none }

/-- C10 evaluation: the timeout constant is 5000 ms, yet the classifier
request made by `checkWithEnhancedAI` carries no cancellation signal for
any prompt, so the scheduled `controller.abort()` cannot abandon the call
at the 5-second boundary. -/
theorem checkWithEnhancedAI_timeout_not_wired :
    AI_TIMEOUT_MS = 5000 ∧ ∀ prompt : String, (enhancedAIRunOptions prompt).signal = none :=
  ⟨rfl, fun _ => rfl⟩

/-! ## Comment tree builder (`comment-tree.ts`)

`buildCommentTree` builds a mutable object graph: a JS `Map` keyed by
comment id holds one node per id, the second pass pushes node references
onto parents' children arrays or onto the root array, and the returned
value is that graph seen from the roots.  The embedding records the map
(association list with `Map.set` overwrite semantics), the per-id pushed
children ids and the pushed root ids, then materialises the graph by
unfolding it into an inductive tree with a fuel bound
(`comments.length + 1`) that exceeds the depth of any acyclic instance.
JS truthiness of `comment.parentId` means a present, non-zero parent id. -/

/-- Comment status values from the shared types. -/
inductive CommentStatus where
  | pending | approved | rejected | deleted
deriving DecidableEq, Repr

/-- `CommentWithUser` from the shared types, restricted to the fields the
tree builder and the claims read. -/
structure CommentWithUser where
  id : Nat
  parentId : Option Nat
  userId : Nat
  content : String
  status : CommentStatus
deriving DecidableEq, Repr

/-- `CommentTree` from the shared types: a comment plus its children. -/
inductive CommentTree where
  | mk (comment : CommentWithUser) (children : List CommentTree)

/-- `filterApprovedComments` from `comment-tree.ts`. -/
def filterApprovedComments (comments : List CommentWithUser) : List CommentWithUser :=
  comments.filter (fun c => c.status == CommentStatus.approved)

/-- `validateTreeOnlyApproved` from `comment-tree.ts`. -/
def validateTreeOnlyApproved : List CommentTree → Bool
  | [] => true
  | .mk c cs :: ts =>
    if c.status ≠ CommentStatus.approved then false
    else validateTreeOnlyApproved cs && validateTreeOnlyApproved ts

/-- `countTreeComments` from `comment-tree.ts`. -/
def countTreeComments : List CommentTree → Nat
  | [] => 0
  | .mk _ cs :: ts => (1 + countTreeComments cs) + countTreeComments ts

/-- `flattenCommentTree` from `comment-tree.ts`: preorder traversal,
dropping the `children` field. -/
def flattenCommentTree : List CommentTree → List CommentWithUser
  | [] => []
  | .mk c cs :: ts => c :: (flattenCommentTree cs ++ flattenCommentTree ts)

/-- JS `Map.set`: overwrite the value under an existing key, else append
the new entry (insertion order, as in JS Maps). -/
def mapSet (m : List (Nat × CommentWithUser)) (k : Nat) (v : CommentWithUser) :
    List (Nat × CommentWithUser) :=
  if m.any (fun e => e.1 == k) then
    m.map (fun e => if e.1 == k then (k, v) else e)
  else m ++ [(k, v)]

/-- JS `Map.get`. -/
def mapGet (m : List (Nat × CommentWithUser)) (k : Nat) : Option CommentWithUser :=
  (m.find? (fun e => e.1 == k)).map (fun e => e.2)

/-- First pass of `buildCommentTree`: `commentMap.set(comment.id, node)`
over the approved comments in order. -/
def buildCommentMap (approved : List CommentWithUser) : List (Nat × CommentWithUser) :=
  approved.foldl (fun m c => mapSet m c.id c) []

/-- Append a child id to the pushed-children record of a parent id. -/
def pushChild (m : List (Nat × List Nat)) (p c : Nat) : List (Nat × List Nat) :=
  if m.any (fun e => e.1 == p) then
    m.map (fun e => if e.1 == p then (e.1, e.2 ++ [c]) else e)
  else m ++ [(p, [c])]

/-- Ids pushed onto the children array of the node with id `p` (empty when
nothing was pushed). -/
def childLookup (m : List (Nat × List Nat)) (p : Nat) : List Nat :=
  ((m.find? (fun e => e.1 == p)).map (fun e => e.2)).getD []

/-- State of the second pass: pushed children ids per node id, and the
pushed root ids. -/
structure BuildState where
  childrenMap : List (Nat × List Nat)
  rootIds : List Nat
deriving DecidableEq, Repr

/-- One step of the second pass of `buildCommentTree`: a truthy `parentId`
found in the map pushes the node onto the parent's children, otherwise the
node is pushed onto the roots. -/
def addComment (cm : List (Nat × CommentWithUser)) (s : BuildState)
    (c : CommentWithUser) : BuildState :=
  match c.parentId with
  | some p =>
    if p ≠ 0 then
      match mapGet cm p with
      | some _ => { s with childrenMap := pushChild s.childrenMap p c.id }
      | none => { s with rootIds := s.rootIds ++ [c.id] }
    else { s with rootIds := s.rootIds ++ [c.id] }
  | none => { s with rootIds := s.rootIds ++ [c.id] }

/-- Placeholder comment for lookups that cannot fail on the ids the
builder produces (kept non-approved so a modelling slip could not fake the
approval invariant). -/
def defaultComment : CommentWithUser :=
  ⟨0, none, 0, "", CommentStatus.pending⟩

/-- Materialise the node graph from id `i`: node data from the comment
map, children from the pushed-children record, recursing with decreasing
fuel. -/
def mkTree (cm : List (Nat × CommentWithUser)) (ch : List (Nat × List Nat)) :
    Nat → Nat → CommentTree
  | 0, i => .mk ((mapGet cm i).getD defaultComment) []
  | fuel + 1, i =>
    .mk ((mapGet cm i).getD defaultComment)
      ((childLookup ch i).map (mkTree cm ch fuel))

/-- `buildCommentTree` from `comment-tree.ts`: filter to approved, build
the id-keyed node map, run the second pass, and return the graph unfolded
from the pushed roots. -/
def buildCommentTree (comments : List CommentWithUser) : List CommentTree :=
  let approved := filterApprovedComments comments
  let cm := buildCommentMap approved
  let st := approved.foldl (addComment cm) ⟨[], []⟩
  st.rootIds.map (mkTree cm st.childrenMap (comments.length + 1))

/-! ## Analysis of the builder graph

`parentOf` is the attachment relation the second pass implements: a truthy
`parentId` pointing at an approved id.  `rootDistB` follows parent links
upward with bounded fuel; inputs whose approved comments all have a
defined root distance (with fuel `A.length`) are exactly the acyclic
instances, on which the unfolded graph is a finite forest. -/

/-- The id the second pass attaches the comment `c` to, if any: a truthy
`parentId` present among the ids of `A`. -/
def commentParent (A : List CommentWithUser) (c : CommentWithUser) : Option Nat :=
  match c.parentId with
  | some p =>
    if p ≠ 0 ∧ (A.find? (fun d => d.id == p)).isSome then some p else none
  | none => none

/-- Attachment target of the node with id `i` (via the first comment of
`A` carrying that id). -/
def parentOf (A : List CommentWithUser) (i : Nat) : Option Nat :=
  match A.find? (fun c => c.id == i) with
  | some c => commentParent A c
  | none => none

/-- Follow `k` parent links upward from id `i`. -/
def iterParent (A : List CommentWithUser) : Nat → Nat → Option Nat
  | 0, i => some i
  | k + 1, i =>
    match parentOf A i with
    | some p => iterParent A k p
    | none => none

/-- Distance to the root along parent links, with fuel. -/
def rootDistB (A : List CommentWithUser) : Nat → Nat → Option Nat
  | 0, _ => none
  | f + 1, i =>
    match parentOf A i with
    | none => some 0
    | some p => (rootDistB A f p).map (· + 1)

/-- Canonical root distance: fuel `A.length` suffices on acyclic inputs. -/
def distOf (A : List CommentWithUser) (i : Nat) : Option Nat :=
  rootDistB A A.length i

/-- Does the parent chain from id `x` pass through id `c` (within
`A.length` steps)? -/
def reachesB (A : List CommentWithUser) (x c : Nat) : Bool :=
  (List.range (A.length + 1)).any (fun k => iterParent A k x == some c)

/-- The comments of `A` whose parent chain passes through id `c`: the
descendants of `c` (including `c` itself). -/
def descList (A : List CommentWithUser) (c : Nat) : List CommentWithUser :=
  A.filter (fun x => reachesB A x.id c)

/-- Well-formed input for the tree builder: the approved comments carry
pairwise-distinct ids and their parent links are acyclic (every approved
comment has a defined root distance). -/
def wellFormedForest (l : List CommentWithUser) : Prop :=
  ((filterApprovedComments l).map (fun c => c.id)).Nodup ∧
  ∀ c ∈ filterApprovedComments l,
    (distOf (filterApprovedComments l) c.id).isSome

instance (l : List CommentWithUser) : Decidable (wellFormedForest l) := by
  unfold wellFormedForest
  infer_instance

/-! ## Counterexamples to C7 and C8 as stated

A comment that is its own parent is approved, present in the id map, and
therefore pushed onto its own children array rather than onto the roots:
the returned forest is empty, dropping the comment. -/

/-- Counterexample to C7 as stated: for the single-comment list whose
comment is approved but its own parent, `buildCommentTree` returns the
empty forest, so `countTreeComments` is 0 while the list has 1 approved
comment. -/
theorem countTreeComments_build_self_parent_ne :
    countTreeComments (buildCommentTree [⟨1, some 1, 7, "self", CommentStatus.approved⟩]) ≠
      (filterApprovedComments [⟨1, some 1, 7, "self", CommentStatus.approved⟩]).length := by
  have h : buildCommentTree [⟨1, some 1, 7, "self", CommentStatus.approved⟩] = [] := rfl
  rw [h]
  show countTreeComments [] ≠ 1
  simp [countTreeComments]

/-- Counterexample to C8 as stated: for the same self-parent list,
flattening the built tree yields the empty list, which is not a
permutation of the one-element approved subset. -/
theorem flatten_build_self_parent_not_perm :
    ¬ (flattenCommentTree
        (buildCommentTree [⟨2, some 2, 7, "loop", CommentStatus.approved⟩])).Perm
      (filterApprovedComments [⟨2, some 2, 7, "loop", CommentStatus.approved⟩]) := by
  intro hperm
  have h : buildCommentTree [⟨2, some 2, 7, "loop", CommentStatus.approved⟩] = [] := rfl
  rw [h] at hperm
  have hlen := hperm.length_eq
  rw [show (filterApprovedComments
      [⟨2, some 2, 7, "loop", CommentStatus.approved⟩]).length = 1 from rfl] at hlen
  simp [flattenCommentTree] at hlen

/-! ## Bridging the built maps to the attachment relation -/

/-- With duplicate-free ids no `Map.set` call overwrites, so the first
pass produces the id-keyed association of the approved list in order. -/
theorem buildCommentMap_eq_of_nodup :
    ∀ (l : List CommentWithUser) (m : List (Nat × CommentWithUser)),
      (m.map (fun e => e.1) ++ l.map (fun c => c.id)).Nodup →
      l.foldl (fun m c => mapSet m c.id c) m = m ++ l.map (fun c => (c.id, c)) := by
  intro l
  induction l with
  | nil => intro m _; simp
  | cons c cs ih =>
    intro m hnd
    have hnotkey : ¬ (m.any (fun e => e.1 == c.id) = true) := by
      rw [List.any_eq_true]
      rintro ⟨e, he, heq⟩
      have heq' : e.1 = c.id := by simpa using heq
      have hdisj := List.disjoint_of_nodup_append hnd
      exact hdisj (List.mem_map_of_mem _ he) (by simp [heq'])
    have hset : mapSet m c.id c = m ++ [(c.id, c)] := by
      unfold mapSet
      rw [if_neg hnotkey]
    simp only [List.foldl_cons, hset]
    rw [ih (m ++ [(c.id, c)]) ?_]
    · simp
    · have hperm : ((m ++ [(c.id, c)]).map (fun e => e.1) ++ cs.map (fun c => c.id)).Perm
          (m.map (fun e => e.1) ++ (c :: cs).map (fun c => c.id)) := by
        simp only [List.map_append, List.map_cons, List.map_nil, List.append_assoc,
          List.singleton_append]
        exact List.Perm.refl _
      exact hperm.symm.nodup hnd

/-- Under duplicate-free ids, `Map.get` on the first-pass map is `find?`
by id on the approved list. -/
theorem mapGet_buildCommentMap (A : List CommentWithUser)
    (hN : (A.map (fun c => c.id)).Nodup) (i : Nat) :
    mapGet (buildCommentMap A) i = A.find? (fun c => c.id == i) := by
  have h := buildCommentMap_eq_of_nodup A [] (by simpa using hN)
  unfold buildCommentMap
  rw [h]
  unfold mapGet
  rw [List.nil_append, List.find?_map]
  simp [Function.comp_def]

/-- Updating the values under key `p` does not change lookups under a
different key. -/
theorem find?_pushChild_upd_ne (es : List (Nat × List Nat)) (p c q : Nat) (hqp : q ≠ p) :
    (es.map (fun e => if e.1 == p then (e.1, e.2 ++ [c]) else e)).find?
        (fun e => e.1 == q) =
      es.find? (fun e => e.1 == q) := by
  induction es with
  | nil => rfl
  | cons e es ih =>
    by_cases hep : e.1 = p
    · have he1q : ¬ (e.1 = q) := by omega
      simp only [List.map_cons]
      rw [if_pos (show (e.1 == p) = true by simpa using hep)]
      rw [List.find?_cons_of_neg _ (by simpa using he1q),
        List.find?_cons_of_neg _ (by simpa using he1q), ih]
    · simp only [List.map_cons]
      rw [if_neg (show ¬ (e.1 == p) = true by simpa using hep)]
      by_cases heq : e.1 = q
      · rw [List.find?_cons_of_pos _ (by simpa using heq),
          List.find?_cons_of_pos _ (by simpa using heq)]
      · rw [List.find?_cons_of_neg _ (by simpa using heq),
          List.find?_cons_of_neg _ (by simpa using heq), ih]

/-- Lookups under key `p` after updating the values under `p`. -/
theorem find?_pushChild_upd_self (es : List (Nat × List Nat)) (p c : Nat) :
    (es.map (fun e => if e.1 == p then (e.1, e.2 ++ [c]) else e)).find?
        (fun e => e.1 == p) =
      (es.find? (fun e => e.1 == p)).map (fun e => (e.1, e.2 ++ [c])) := by
  induction es with
  | nil => rfl
  | cons e es ih =>
    by_cases hep : e.1 = p
    · simp only [List.map_cons]
      rw [if_pos (show (e.1 == p) = true by simpa using hep)]
      rw [List.find?_cons_of_pos _ (by simpa using hep),
        List.find?_cons_of_pos _ (by simpa using hep)]
      rfl
    · simp only [List.map_cons]
      rw [if_neg (show ¬ (e.1 == p) = true by simpa using hep)]
      rw [List.find?_cons_of_neg _ (by simpa using hep),
        List.find?_cons_of_neg _ (by simpa using hep), ih]

/-- `childLookup` after `pushChild`: the pushed id is appended under its
parent key and nothing else changes. -/
theorem childLookup_pushChild (m : List (Nat × List Nat)) (p c q : Nat) :
    childLookup (pushChild m p c) q =
      if q = p then childLookup m p ++ [c] else childLookup m q := by
  unfold pushChild childLookup
  by_cases hany : (m.any (fun e => e.1 == p)) = true
  · rw [if_pos hany]
    by_cases hqp : q = p
    · subst hqp
      rw [find?_pushChild_upd_self, if_pos rfl]
      obtain ⟨e, he, hep⟩ := List.any_eq_true.mp hany
      cases hf : m.find? (fun e => e.1 == q) with
      | none =>
        exfalso
        have := List.find?_eq_none.mp hf e he
        simp_all
      | some e' => simp
    · rw [find?_pushChild_upd_ne _ _ _ _ hqp, if_neg hqp]
  · rw [if_neg hany]
    have hnone : m.find? (fun e => e.1 == p) = none := by
      rw [List.find?_eq_none]
      intro e he hep
      exact hany (List.any_eq_true.mpr ⟨e, he, hep⟩)
    by_cases hqp : q = p
    · subst hqp
      rw [if_pos rfl, List.find?_append, hnone]
      simp
    · rw [if_neg hqp, List.find?_append]
      have hpq : (p == q) = false := beq_eq_false_iff_ne.mpr (fun h => hqp h.symm)
      have hsingle : List.find? (fun e => e.1 == q) [(p, [c])] = none := by
        rw [List.find?_cons_of_neg _ (by simpa using hpq)]
        rfl
      rw [hsingle]
      cases m.find? (fun e => e.1 == q) <;> rfl

/-- Does the second pass push comment `c` onto the children of id `p`? -/
def attachesTo (cm : List (Nat × CommentWithUser)) (c : CommentWithUser) (p : Nat) : Bool :=
  match c.parentId with
  | some q => q == p && q != 0 && (mapGet cm q).isSome
  | none => false

/-- Does the second pass push comment `c` onto the roots? -/
def isRootPush (cm : List (Nat × CommentWithUser)) (c : CommentWithUser) : Bool :=
  match c.parentId with
  | some q => q == 0 || !(mapGet cm q).isSome
  | none => true

/-- The second pass pushes exactly the non-attaching comments onto the
roots, in order. -/
theorem secondPass_rootIds (cm : List (Nat × CommentWithUser)) :
    ∀ (l : List CommentWithUser) (s : BuildState),
      (l.foldl (addComment cm) s).rootIds =
        s.rootIds ++ (l.filter (isRootPush cm)).map (fun c => c.id) := by
  intro l
  induction l with
  | nil => intro s; simp
  | cons c cs ih =>
    intro s
    simp only [List.foldl_cons]
    rw [ih]
    cases hp : c.parentId with
    | none =>
      have h1 : addComment cm s c = { s with rootIds := s.rootIds ++ [c.id] } := by
        simp [addComment, hp]
      have h2 : isRootPush cm c = true := by
        simp [isRootPush, hp]
      rw [h1, List.filter_cons_of_pos h2]
      simp [List.append_assoc]
    | some q =>
      by_cases hq0 : q = 0
      · subst hq0
        have h1 : addComment cm s c = { s with rootIds := s.rootIds ++ [c.id] } := by
          simp [addComment, hp]
        have h2 : isRootPush cm c = true := by
          simp [isRootPush, hp]
        rw [h1, List.filter_cons_of_pos h2]
        simp [List.append_assoc]
      · cases hget : mapGet cm q with
        | some d =>
          have h1 : addComment cm s c =
              { s with childrenMap := pushChild s.childrenMap q c.id } := by
            simp [addComment, hp, hq0, hget]
          have h2 : isRootPush cm c = false := by
            simp [isRootPush, hp, hget, hq0]
          rw [h1, List.filter_cons_of_neg (by simp [h2])]
        | none =>
          have h1 : addComment cm s c = { s with rootIds := s.rootIds ++ [c.id] } := by
            simp [addComment, hp, hq0, hget]
          have h2 : isRootPush cm c = true := by
            simp [isRootPush, hp, hget]
          rw [h1, List.filter_cons_of_pos h2]
          simp [List.append_assoc]

/-- The second pass pushes exactly the comments attaching to id `p` onto
the children record of `p`, in order. -/
theorem secondPass_children (cm : List (Nat × CommentWithUser)) :
    ∀ (l : List CommentWithUser) (s : BuildState) (p : Nat),
      childLookup (l.foldl (addComment cm) s).childrenMap p =
        childLookup s.childrenMap p ++
          ((l.filter (fun c => attachesTo cm c p)).map (fun c => c.id)) := by
  intro l
  induction l with
  | nil => intro s p; simp
  | cons c cs ih =>
    intro s p
    simp only [List.foldl_cons]
    rw [ih]
    cases hp : c.parentId with
    | none =>
      have h1 : addComment cm s c = { s with rootIds := s.rootIds ++ [c.id] } := by
        simp [addComment, hp]
      have h2 : attachesTo cm c p = false := by
        simp [attachesTo, hp]
      rw [h1]
      simp [List.filter_cons, h2]
    | some q =>
      by_cases hq0 : q = 0
      · subst hq0
        have h1 : addComment cm s c = { s with rootIds := s.rootIds ++ [c.id] } := by
          simp [addComment, hp]
        have h2 : attachesTo cm c p = false := by
          simp [attachesTo, hp]
        rw [h1]
        simp [List.filter_cons, h2]
      · cases hget : mapGet cm q with
        | some d =>
          have h1 : addComment cm s c =
              { s with childrenMap := pushChild s.childrenMap q c.id } := by
            simp [addComment, hp, hq0, hget]
          rw [h1]
          by_cases hpq : p = q
          · subst hpq
            have h2 : attachesTo cm c p = true := by
              simp [attachesTo, hp, hget, hq0]
            show childLookup (pushChild s.childrenMap p c.id) p ++ _ = _
            rw [childLookup_pushChild, if_pos rfl]
            simp [List.filter_cons, h2, List.append_assoc]
          · have h2 : attachesTo cm c p = false := by
              have hqp : (q == p) = false := beq_eq_false_iff_ne.mpr (fun h => hpq h.symm)
              simp [attachesTo, hp, hget, hqp]
            show childLookup (pushChild s.childrenMap q c.id) p ++ _ = _
            rw [childLookup_pushChild, if_neg hpq]
            simp [List.filter_cons, h2]
        | none =>
          have h1 : addComment cm s c = { s with rootIds := s.rootIds ++ [c.id] } := by
            simp [addComment, hp, hq0, hget]
          have h2 : attachesTo cm c p = false := by
            simp [attachesTo, hp, hget]
          rw [h1]
          simp [List.filter_cons, h2]

/-- Under duplicate-free ids, `find?` by a member's id returns that
member. -/
theorem find?_id_self (A : List CommentWithUser)
    (hN : (A.map (fun c => c.id)).Nodup) (c : CommentWithUser) (hc : c ∈ A) :
    A.find? (fun d => d.id == c.id) = some c := by
  induction A with
  | nil => cases hc
  | cons a as ih =>
    have hN' : (a.id :: as.map (fun c => c.id)).Nodup := by simpa using hN
    rcases List.mem_cons.1 hc with rfl | hc
    · rw [List.find?_cons_of_pos _ (by simp)]
    · have ha : ¬ (a.id = c.id) := by
        intro h
        refine (List.nodup_cons.1 hN').1 ?_
        rw [h]
        exact List.mem_map_of_mem _ hc
      rw [List.find?_cons_of_neg _ (by simpa using ha)]
      exact ih (List.nodup_cons.1 hN').2 hc

/-- Under duplicate-free ids, ids identify comments. -/
theorem id_inj (A : List CommentWithUser)
    (hN : (A.map (fun c => c.id)).Nodup) (c d : CommentWithUser)
    (hc : c ∈ A) (hd : d ∈ A) (h : c.id = d.id) : c = d := by
  have h1 := find?_id_self A hN c hc
  have h2 := find?_id_self A hN d hd
  rw [h] at h1
  rw [h1] at h2
  exact Option.some_injective _ h2

/-- A successful `find?` by id returns a member carrying that id. -/
theorem find?_id_mem (A : List CommentWithUser) (i : Nat) (c : CommentWithUser)
    (h : A.find? (fun d => d.id == i) = some c) : c ∈ A ∧ c.id = i := by
  refine ⟨List.mem_of_find?_eq_some h, ?_⟩
  have := List.find?_some h
  simpa using this

/-- For a member of `A`, the attachment test run by the second pass agrees
with `parentOf` at its id. -/
theorem attachesTo_eq_parentOf (A : List CommentWithUser)
    (hN : (A.map (fun c => c.id)).Nodup) (c : CommentWithUser) (hc : c ∈ A) (p : Nat) :
    attachesTo (buildCommentMap A) c p = (parentOf A c.id == some p) := by
  have hfindc := find?_id_self A hN c hc
  cases hp : c.parentId with
  | none => simp [attachesTo, parentOf, commentParent, hfindc, hp]
  | some q =>
    by_cases hq0 : q = 0
    · subst hq0
      simp [attachesTo, parentOf, commentParent, hfindc, hp, mapGet_buildCommentMap A hN]
    · cases hfind : A.find? (fun d => d.id == q) with
      | none =>
        simp [attachesTo, parentOf, commentParent, hfindc, hp,
          mapGet_buildCommentMap A hN, hfind, hq0]
      | some d =>
        obtain ⟨hdmem, hdid⟩ := find?_id_mem A q d hfind
        have hex : ∃ x ∈ A, x.id = q := ⟨d, hdmem, hdid⟩
        by_cases hqp : q = p
        · subst hqp
          simp [attachesTo, parentOf, commentParent, hfindc, hp,
            mapGet_buildCommentMap A hN, hfind, hq0, hex]
        · simp [attachesTo, parentOf, commentParent, hfindc, hp,
            mapGet_buildCommentMap A hN, hfind, hq0, hqp, hex]

/-- For a member of `A`, the root test run by the second pass agrees with
`parentOf` at its id. -/
theorem isRootPush_eq_parentOf (A : List CommentWithUser)
    (hN : (A.map (fun c => c.id)).Nodup) (c : CommentWithUser) (hc : c ∈ A) :
    isRootPush (buildCommentMap A) c = (parentOf A c.id).isNone := by
  have hfindc := find?_id_self A hN c hc
  cases hp : c.parentId with
  | none => simp [isRootPush, parentOf, commentParent, hfindc, hp]
  | some q =>
    by_cases hq0 : q = 0
    · subst hq0
      simp [isRootPush, parentOf, commentParent, hfindc, hp, mapGet_buildCommentMap A hN]
    · cases hfind : A.find? (fun d => d.id == q) with
      | none =>
        simp [isRootPush, parentOf, commentParent, hfindc, hp,
          mapGet_buildCommentMap A hN, hfind, hq0]
      | some d =>
        simp [isRootPush, parentOf, commentParent, hfindc, hp,
          mapGet_buildCommentMap A hN, hfind, hq0]

/-! ## Root distances and parent chains -/

/-- A computed root distance is below the fuel. -/
theorem rootDistB_lt (A : List CommentWithUser) :
    ∀ (f i d : Nat), rootDistB A f i = some d → d < f := by
  intro f
  induction f with
  | zero => intro i d h; cases h
  | succ f ih =>
    intro i d h
    cases hp : parentOf A i with
    | none =>
      simp only [rootDistB, hp, Option.some.injEq] at h
      omega
    | some p =>
      simp only [rootDistB, hp] at h
      cases hrec : rootDistB A f p with
      | none =>
        rw [hrec] at h
        cases h
      | some d' =>
        rw [hrec] at h
        have := ih p d' hrec
        simp only [Option.map_some', Option.some.injEq] at h
        omega

/-- A computed root distance is stable under more fuel. -/
theorem rootDistB_mono (A : List CommentWithUser) :
    ∀ (f f' i d : Nat), rootDistB A f i = some d → f ≤ f' → rootDistB A f' i = some d := by
  intro f
  induction f with
  | zero => intro f' i d h; cases h
  | succ f ih =>
    intro f' i d h hle
    obtain ⟨f'', rfl⟩ : ∃ f'', f' = f'' + 1 := ⟨f' - 1, by omega⟩
    cases hp : parentOf A i with
    | none =>
      simp only [rootDistB, hp] at h ⊢
      exact h
    | some p =>
      simp only [rootDistB, hp] at h ⊢
      cases hrec : rootDistB A f p with
      | none =>
        rw [hrec] at h
        cases h
      | some d' =>
        rw [hrec] at h
        rw [ih f'' p d' hrec (by omega)]
        exact h

/-- A root distance of an attached node is one more than its parent's. -/
theorem distOf_parent (A : List CommentWithUser) (i p d : Nat)
    (hp : parentOf A i = some p) (hd : distOf A i = some d) :
    ∃ d', distOf A p = some d' ∧ d = d' + 1 := by
  unfold distOf at hd ⊢
  obtain ⟨n, hn⟩ : ∃ n, A.length = n + 1 := by
    cases hA : A.length with
    | zero =>
      rw [hA] at hd
      cases hd
    | succ n => exact ⟨n, rfl⟩
  rw [hn] at hd
  simp only [rootDistB, hp] at hd
  cases hrec : rootDistB A n p with
  | none =>
    rw [hrec] at hd
    cases hd
  | some d' =>
    rw [hrec] at hd
    simp only [Option.map_some', Option.some.injEq] at hd
    exact ⟨d', by rw [hn]; exact rootDistB_mono A n (n + 1) p d' hrec (by omega), by omega⟩

/-- A node with no parent link has root distance 0 (on nonempty `A`). -/
theorem distOf_root (A : List CommentWithUser) (i : Nat)
    (hp : parentOf A i = none) (hlen : 0 < A.length) : distOf A i = some 0 := by
  unfold distOf
  obtain ⟨n, hn⟩ : ∃ n, A.length = n + 1 := ⟨A.length - 1, by omega⟩
  rw [hn]
  simp only [rootDistB, hp]

/-- A node with root distance 0 has no parent link. -/
theorem parentOf_eq_none_of_distOf_zero (A : List CommentWithUser) (i : Nat)
    (hd : distOf A i = some 0) : parentOf A i = none := by
  unfold distOf at hd
  cases hA : A.length with
  | zero =>
    rw [hA] at hd
    cases hd
  | succ n =>
    rw [hA] at hd
    cases hp : parentOf A i with
    | none => rfl
    | some p =>
      simp only [rootDistB, hp] at hd
      cases hrec : rootDistB A n p with
      | none =>
        rw [hrec] at hd
        cases hd
      | some d' =>
        rw [hrec] at hd
        simp only [Option.map_some', Option.some.injEq] at hd
        omega

/-- Peel one parent step at the far end of an iterated chain. -/
theorem iterParent_succ_last (A : List CommentWithUser) :
    ∀ (k i : Nat), iterParent A (k + 1) i = (iterParent A k i).bind (parentOf A) := by
  intro k
  induction k with
  | zero =>
    intro i
    cases hp : parentOf A i <;> simp [iterParent, hp]
  | succ k ih =>
    intro i
    show iterParent A (k + 1 + 1) i = _
    cases hp : parentOf A i with
    | none => simp [iterParent, hp]
    | some p =>
      have h1 : iterParent A (k + 1 + 1) i = iterParent A (k + 1) p := by
        simp [iterParent, hp]
      have h2 : iterParent A (k + 1) i = iterParent A k p := by
        simp [iterParent, hp]
      rw [h1, h2, ih p]

/-- Root distances decrease by exactly the number of steps along a parent
chain. -/
theorem iterParent_dist (A : List CommentWithUser) :
    ∀ (k x y dx : Nat), iterParent A k x = some y → distOf A x = some dx →
      ∃ dy, distOf A y = some dy ∧ dx = dy + k := by
  intro k
  induction k with
  | zero =>
    intro x y dx hit hdx
    cases hit
    exact ⟨dx, hdx, rfl⟩
  | succ k ih =>
    intro x y dx hit hdx
    cases hp : parentOf A x with
    | none =>
      simp only [iterParent, hp] at hit
      cases hit
    | some p =>
      simp only [iterParent, hp] at hit
      obtain ⟨d', hd', hdd⟩ := distOf_parent A x p dx hp hdx
      obtain ⟨dy, hdy, hk⟩ := ih p y d' hit hd'
      exact ⟨dy, hdy, by omega⟩

/-- The id holding a parent link is the id of some member of `A`. -/
theorem parentOf_dom (A : List CommentWithUser) (i p : Nat)
    (hp : parentOf A i = some p) : ∃ c ∈ A, c.id = i := by
  unfold parentOf at hp
  cases hf : A.find? (fun c => c.id == i) with
  | none =>
    rw [hf] at hp
    cases hp
  | some c =>
    obtain ⟨hmem, hid⟩ := find?_id_mem A i c hf
    exact ⟨c, hmem, hid⟩

/-- A parent link points at the id of some member of `A`. -/
theorem parentOf_target_mem (A : List CommentWithUser) (i p : Nat)
    (hp : parentOf A i = some p) : ∃ c ∈ A, c.id = p := by
  unfold parentOf at hp
  cases hf : A.find? (fun c => c.id == i) with
  | none =>
    rw [hf] at hp
    cases hp
  | some c =>
    rw [hf] at hp
    cases hcp : c.parentId with
    | none =>
      simp only [commentParent, hcp] at hp
      cases hp
    | some q =>
      simp only [commentParent, hcp] at hp
      by_cases hcond : q ≠ 0 ∧ (A.find? (fun d => d.id == q)).isSome = true
      · rw [if_pos hcond] at hp
        cases hp
        cases hf2 : A.find? (fun d => d.id == p) with
        | none =>
          rw [hf2] at hcond
          simp at hcond
        | some cp =>
          obtain ⟨hm, hi⟩ := find?_id_mem A p cp hf2
          exact ⟨cp, hm, hi⟩
      · rw [if_neg hcond] at hp
        cases hp

/-! ## Reachability along parent chains -/

/-- Unfolding of the bounded reachability test. -/
theorem reachesB_iff (A : List CommentWithUser) (x c : Nat) :
    reachesB A x c = true ↔ ∃ k, k ≤ A.length ∧ iterParent A k x = some c := by
  unfold reachesB
  rw [List.any_eq_true]
  constructor
  · rintro ⟨k, hk, hbeq⟩
    have hk' : k < A.length + 1 := List.mem_range.1 hk
    exact ⟨k, by omega, by simpa using hbeq⟩
  · rintro ⟨k, hk, hit⟩
    exact ⟨k, List.mem_range.2 (by omega), by simpa using hit⟩

/-- Any parent chain from a node with defined root distance stays within
the fuel bound, so existence of a chain gives bounded reachability. -/
theorem reachesB_of_iter (A : List CommentWithUser) (x c k : Nat)
    (hx : (distOf A x).isSome) (hit : iterParent A k x = some c) :
    reachesB A x c = true := by
  obtain ⟨dx, hdx⟩ := Option.isSome_iff_exists.mp hx
  obtain ⟨dy, _, hsum⟩ := iterParent_dist A k x c dx hit hdx
  have hlt := rootDistB_lt A A.length x dx hdx
  exact (reachesB_iff A x c).mpr ⟨k, by omega, hit⟩

/-- Every id reaches itself. -/
theorem reachesB_self (A : List CommentWithUser) (x : Nat) :
    reachesB A x x = true :=
  (reachesB_iff A x x).mpr ⟨0, by omega, rfl⟩

/-! ## Counting helpers -/

/-- Count of an element in a filtered duplicate-free list. -/
theorem count_filter_nodup (A : List CommentWithUser) (hA : A.Nodup)
    (p : CommentWithUser → Bool) (z : CommentWithUser) :
    (A.filter p).count z = if z ∈ A ∧ p z = true then 1 else 0 := by
  by_cases hp : p z = true
  · rw [List.count_filter hp, List.count_eq_of_nodup hA]
    by_cases hz : z ∈ A <;> simp [hz, hp]
  · have hnot : z ∉ A.filter p := fun hmem => hp (List.of_mem_filter hmem)
    rw [List.count_eq_zero.mpr hnot]
    simp [hp]

/-- A sum of indicators over a list none of whose members satisfies the
predicate is 0. -/
theorem sum_map_indicator_zero (g : CommentWithUser → Bool) :
    ∀ (L : List CommentWithUser), (∀ x ∈ L, g x = false) →
      (L.map (fun x => if g x = true then (1 : Nat) else 0)).sum = 0 := by
  intro L
  induction L with
  | nil => intro _; rfl
  | cons a as ih =>
    intro h
    simp only [List.map_cons, List.sum_cons]
    rw [if_neg (by simp [h a (List.mem_cons_self _ _)]),
      ih (fun x hx => h x (List.mem_cons_of_mem _ hx))]

/-- A sum of indicators over a duplicate-free list with exactly one member
satisfying the predicate is 1. -/
theorem sum_map_indicator_one (g : CommentWithUser → Bool) (a : CommentWithUser)
    (hga : g a = true) :
    ∀ (L : List CommentWithUser), L.Nodup → a ∈ L →
      (∀ b ∈ L, g b = true → b = a) →
      (L.map (fun x => if g x = true then (1 : Nat) else 0)).sum = 1 := by
  intro L
  induction L with
  | nil => intro _ ha _; cases ha
  | cons b bs ih =>
    intro hN ha huniq
    simp only [List.map_cons, List.sum_cons]
    rcases List.mem_cons.1 ha with rfl | ha'
    · rw [if_pos hga, sum_map_indicator_zero g bs ?_]
      · intro x hx
        cases hgx : g x with
        | false => rfl
        | true =>
          have hxa := huniq x (List.mem_cons_of_mem _ hx) hgx
          subst hxa
          exact absurd hx (List.nodup_cons.1 hN).1
    · have hgb : g b = false := by
        cases hgb : g b with
        | false => rfl
        | true =>
          have hba := huniq b (List.mem_cons_self _ _) hgb
          have hnb := (List.nodup_cons.1 hN).1
          rw [hba] at hnb
          exact absurd ha' hnb
      rw [if_neg (by simp [hgb]),
        ih (List.nodup_cons.1 hN).2 ha'
          (fun x hx hgx => huniq x (List.mem_cons_of_mem _ hx) hgx)]

/-- Reaching a node and stepping to its parent is still reaching. -/
theorem reach_parent_step (A : List CommentWithUser) (z y c : Nat)
    (hz : (distOf A z).isSome) (hr : reachesB A z y = true)
    (hp : parentOf A y = some c) : reachesB A z c = true := by
  obtain ⟨k, _, hit⟩ := (reachesB_iff A z y).mp hr
  have hit' : iterParent A (k + 1) z = some c := by
    rw [iterParent_succ_last, hit]
    simpa using hp
  exact reachesB_of_iter A z c (k + 1) hz hit'

/-- A chain to a different node passes through a node whose parent is the
target. -/
theorem reach_step_down (A : List CommentWithUser) (z c : Nat)
    (hz : (distOf A z).isSome) (hr : reachesB A z c = true) (hne : z ≠ c) :
    ∃ y, parentOf A y = some c ∧ reachesB A z y = true := by
  obtain ⟨k, _, hit⟩ := (reachesB_iff A z c).mp hr
  cases k with
  | zero =>
    cases hit
    exact absurd rfl hne
  | succ k' =>
    rw [iterParent_succ_last] at hit
    cases hy : iterParent A k' z with
    | none =>
      rw [hy] at hit
      cases hit
    | some y =>
      rw [hy] at hit
      simp only [Option.some_bind] at hit
      exact ⟨y, hit, reachesB_of_iter A z y k' hz hy⟩

/-- Two reachable targets at the same root distance coincide. -/
theorem reach_target_unique (A : List CommentWithUser) (z dz : Nat)
    (hz : distOf A z = some dz) (y₁ y₂ d : Nat)
    (hd₁ : distOf A y₁ = some d) (hd₂ : distOf A y₂ = some d)
    (hr₁ : reachesB A z y₁ = true) (hr₂ : reachesB A z y₂ = true) : y₁ = y₂ := by
  obtain ⟨k₁, _, hit₁⟩ := (reachesB_iff A z y₁).mp hr₁
  obtain ⟨k₂, _, hit₂⟩ := (reachesB_iff A z y₂).mp hr₂
  obtain ⟨e₁, he₁, hs₁⟩ := iterParent_dist A k₁ z y₁ dz hit₁ hz
  obtain ⟨e₂, he₂, hs₂⟩ := iterParent_dist A k₂ z y₂ dz hit₂ hz
  rw [hd₁] at he₁
  rw [hd₂] at he₂
  cases he₁
  cases he₂
  have hk : k₁ = k₂ := by omega
  rw [hk, hit₂] at hit₁
  exact (Option.some_injective _ hit₁).symm

/-- Root distance of a node attached to `c` is one more than `c`'s. -/
theorem dist_of_child (A : List CommentWithUser) (i c dc : Nat)
    (hp : parentOf A i = some c) (hi : (distOf A i).isSome)
    (hdc : distOf A c = some dc) : distOf A i = some (dc + 1) := by
  obtain ⟨di, hdi⟩ := Option.isSome_iff_exists.mp hi
  obtain ⟨d', hd', hdd⟩ := distOf_parent A i c di hp hdi
  rw [hdc] at hd'
  cases hd'
  rw [hdi, hdd]

/-- Partition of descendants: the descendants of `c` are `c` itself
together with the descendants of the nodes attached to `c`, as a
permutation (on duplicate-free, acyclic `A`). -/
theorem desc_partition (A : List CommentWithUser)
    (hN : (A.map (fun c => c.id)).Nodup)
    (hD : ∀ c ∈ A, (distOf A c.id).isSome)
    (c : CommentWithUser) (hc : c ∈ A) :
    (descList A c.id).Perm
      (c :: (A.filter (fun x => parentOf A x.id == some c.id)).flatMap
        (fun ch => descList A ch.id)) := by
  have hAnd : A.Nodup := List.Nodup.of_map _ hN
  rw [List.perm_iff_count]
  intro z
  show (descList A c.id).count z = _
  rw [descList, count_filter_nodup A hAnd _ z, List.count_cons, List.count_flatMap]
  have hterm : ∀ ch ∈ A.filter (fun x => parentOf A x.id == some c.id),
      (List.count z ∘ fun ch => descList A ch.id) ch =
        (fun ch => if z ∈ A ∧ reachesB A z.id ch.id = true then 1 else 0) ch := by
    intro ch _
    simp only [Function.comp]
    rw [descList, count_filter_nodup A hAnd _ z]
  rw [List.map_congr_left hterm]
  by_cases hz : z ∈ A
  · simp only [hz, true_and]
    obtain ⟨dz, hdz⟩ := Option.isSome_iff_exists.mp (hD z hz)
    obtain ⟨dc, hdc⟩ := Option.isSome_iff_exists.mp (hD c hc)
    by_cases hreach : reachesB A z.id c.id = true
    · rw [if_pos hreach]
      by_cases hzc : z = c
      · subst hzc
        have hzz : (z == z) = true := by simp
        rw [hzz]
        have hzero : ∀ ch ∈ A.filter (fun x => parentOf A x.id == some z.id),
            reachesB A z.id ch.id = false := by
          intro ch hch
          obtain ⟨hchA, hchp⟩ := List.mem_filter.1 hch
          have hchp' : parentOf A ch.id = some z.id := by simpa using hchp
          have hchd := dist_of_child A ch.id z.id dz hchp' (hD ch hchA) hdz
          cases hrb : reachesB A z.id ch.id with
          | false => rfl
          | true =>
            obtain ⟨k, _, hit⟩ := (reachesB_iff A z.id ch.id).mp hrb
            obtain ⟨dy, hdy, hsum⟩ := iterParent_dist A k z.id ch.id dz hit hdz
            rw [hchd] at hdy
            cases hdy
            omega
        rw [sum_map_indicator_zero _ _ hzero]
        simp
      · have hzc' : (c == z) = false := beq_eq_false_iff_ne.mpr (fun h => hzc h.symm)
        rw [hzc']
        obtain ⟨y, hpy, hry⟩ := reach_step_down A z.id c.id
          (by rw [hdz]; rfl) hreach (fun h => hzc (id_inj A hN z c hz hc h))
        obtain ⟨cy, hcyA, hcyid⟩ := parentOf_dom A y _ hpy
        have hpy' : parentOf A cy.id = some c.id := by rw [hcyid]; exact hpy
        have hry' : reachesB A z.id cy.id = true := by rw [hcyid]; exact hry
        have hcymem : cy ∈ A.filter (fun x => parentOf A x.id == some c.id) :=
          List.mem_filter.2 ⟨hcyA, by simp [hpy']⟩
        have hcyd := dist_of_child A cy.id c.id dc hpy' (hD cy hcyA) hdc
        have huniq : ∀ b ∈ A.filter (fun x => parentOf A x.id == some c.id),
            reachesB A z.id b.id = true → b = cy := by
          intro b hb hrb
          obtain ⟨hbA, hbp⟩ := List.mem_filter.1 hb
          have hbp' : parentOf A b.id = some c.id := by simpa using hbp
          have hbd := dist_of_child A b.id c.id dc hbp' (hD b hbA) hdc
          have := reach_target_unique A z.id dz hdz b.id cy.id (dc + 1) hbd hcyd hrb hry'
          exact id_inj A hN b cy hbA hcyA this
        rw [sum_map_indicator_one _ cy hry' _ (List.Nodup.filter _ hAnd) hcymem huniq]
        simp
    · rw [if_neg (by simp [hreach])]
      have hzc : (c == z) = false :=
        beq_eq_false_iff_ne.mpr
          (fun h => hreach (by rw [h]; exact reachesB_self A z.id))
      rw [hzc]
      have hzero : ∀ ch ∈ A.filter (fun x => parentOf A x.id == some c.id),
          reachesB A z.id ch.id = false := by
        intro ch hch
        obtain ⟨hchA, hchp⟩ := List.mem_filter.1 hch
        have hchp' : parentOf A ch.id = some c.id := by simpa using hchp
        cases hrb : reachesB A z.id ch.id with
        | false => rfl
        | true =>
          have := reach_parent_step A z.id ch.id c.id (by rw [hdz]; rfl) hrb hchp'
          exact absurd this (by simp [hreach])
      rw [sum_map_indicator_zero _ _ hzero]
      simp
  · rw [if_neg (by tauto)]
    have hzc : (c == z) = false := beq_eq_false_iff_ne.mpr (fun h => hz (h ▸ hc))
    rw [hzc]
    have hzero : ((A.filter (fun x => parentOf A x.id == some c.id)).map
        (fun ch => if z ∈ A ∧ reachesB A z.id ch.id = true then (1 : Nat) else 0)).sum
          = 0 := by
      refine List.sum_eq_zero ?_
      intro x hx
      obtain ⟨ch, _, rfl⟩ := List.mem_map.1 hx
      rw [if_neg (by tauto)]
    rw [hzero]
    simp

/-- Preorder flattening splits off the head tree. -/
theorem flatten_cons_split (t : CommentTree) (ts : List CommentTree) :
    flattenCommentTree (t :: ts) = flattenCommentTree [t] ++ flattenCommentTree ts := by
  cases t with
  | mk a cs => simp [flattenCommentTree]

/-- Flattening a mapped forest is the concatenation of the flattened
singleton trees. -/
theorem flatten_map_flatMap {α : Type} (g : α → CommentTree) :
    ∀ (L : List α),
      flattenCommentTree (L.map g) = L.flatMap (fun i => flattenCommentTree [g i]) := by
  intro L
  induction L with
  | nil => simp [flattenCommentTree]
  | cons i L ih =>
    rw [List.map_cons, flatten_cons_split, List.flatMap_cons, ih]

/-- Pointwise permutations lift to `flatMap`. -/
theorem flatMap_perm_congr {α : Type} (f g : α → List CommentWithUser) :
    ∀ (L : List α), (∀ x ∈ L, (f x).Perm (g x)) → (L.flatMap f).Perm (L.flatMap g) := by
  intro L
  induction L with
  | nil => intro _; rfl
  | cons x L ih =>
    intro h
    rw [List.flatMap_cons, List.flatMap_cons]
    exact (h x (List.mem_cons_self _ _)).append
      (ih (fun y hy => h y (List.mem_cons_of_mem _ hy)))

/-- The parent chain from a member id ends at a root member after exactly
its root distance many steps. -/
theorem iter_reaches_root (A : List CommentWithUser) :
    ∀ (dz x : Nat), distOf A x = some dz → (∃ cx ∈ A, cx.id = x) →
      ∃ y, iterParent A dz x = some y ∧ parentOf A y = none ∧ ∃ r ∈ A, r.id = y := by
  intro dz
  induction dz with
  | zero =>
    intro x hd hx
    exact ⟨x, rfl, parentOf_eq_none_of_distOf_zero A x hd, hx⟩
  | succ dz ih =>
    intro x hd hx
    obtain ⟨cx, hcx, hcxid⟩ := hx
    cases hp : parentOf A x with
    | none =>
      have hlen : 0 < A.length := List.length_pos.2 (fun h => by subst h; cases hcx)
      have := distOf_root A x hp hlen
      rw [hd] at this
      cases this
    | some p =>
      obtain ⟨d', hd', hdd⟩ := distOf_parent A x p (dz + 1) hp hd
      have hd'' : distOf A p = some dz := by
        rw [hd']
        congr 1
        omega
      obtain ⟨y, hy, hroot, hr⟩ := ih p hd'' (parentOf_target_mem A x p hp)
      refine ⟨y, ?_, hroot, hr⟩
      simp only [iterParent, hp]
      exact hy

/-- Partition of `A` into the descendants of its roots, as a permutation
(on duplicate-free, acyclic `A`). -/
theorem roots_flatMap_desc_perm (A : List CommentWithUser)
    (hN : (A.map (fun c => c.id)).Nodup)
    (hD : ∀ c ∈ A, (distOf A c.id).isSome) :
    ((A.filter (fun x => (parentOf A x.id).isNone)).flatMap
      (fun r => descList A r.id)).Perm A := by
  have hAnd : A.Nodup := List.Nodup.of_map _ hN
  rw [List.perm_iff_count]
  intro z
  rw [List.count_flatMap]
  have hterm : ∀ r ∈ A.filter (fun x => (parentOf A x.id).isNone),
      (List.count z ∘ fun r => descList A r.id) r =
        (fun r => if z ∈ A ∧ reachesB A z.id r.id = true then 1 else 0) r := by
    intro r _
    simp only [Function.comp]
    rw [descList, count_filter_nodup A hAnd _ z]
  rw [List.map_congr_left hterm, List.count_eq_of_nodup hAnd]
  by_cases hz : z ∈ A
  · rw [if_pos hz]
    simp only [hz, true_and]
    obtain ⟨dz, hdz⟩ := Option.isSome_iff_exists.mp (hD z hz)
    obtain ⟨y, hy, hyroot, r0, hr0A, hr0id⟩ := iter_reaches_root A dz z.id hdz ⟨z, hz, rfl⟩
    have hr0p : parentOf A r0.id = none := by rw [hr0id]; exact hyroot
    have hr0mem : r0 ∈ A.filter (fun x => (parentOf A x.id).isNone) :=
      List.mem_filter.2 ⟨hr0A, by simp [hr0p]⟩
    have hlen : 0 < A.length := List.length_pos.2 (fun h => by subst h; cases hz)
    have hr0d : distOf A r0.id = some 0 := distOf_root A r0.id hr0p hlen
    have hreach0 : reachesB A z.id r0.id = true := by
      refine reachesB_of_iter A z.id r0.id dz (by rw [hdz]; rfl) ?_
      rw [hr0id]
      exact hy
    have huniq : ∀ b ∈ A.filter (fun x => (parentOf A x.id).isNone),
        reachesB A z.id b.id = true → b = r0 := by
      intro b hb hrb
      obtain ⟨hbA, hbp⟩ := List.mem_filter.1 hb
      have hbp' : parentOf A b.id = none := by simpa using hbp
      have hbd : distOf A b.id = some 0 := distOf_root A b.id hbp' hlen
      have := reach_target_unique A z.id dz hdz b.id r0.id 0 hbd hr0d hrb hreach0
      exact id_inj A hN b r0 hbA hr0A this
    rw [sum_map_indicator_one _ r0 hreach0 _ (List.Nodup.filter _ hAnd) hr0mem huniq]
  · rw [if_neg hz]
    have hzero : ∀ r ∈ A.filter (fun x => (parentOf A x.id).isNone),
        (fun r => if z ∈ A ∧ reachesB A z.id r.id = true then (1 : Nat) else 0) r = 0 := by
      intro r _
      simp [hz]
    rw [List.map_congr_left hzero]
    simp

/-- Unfolding a node of the builder graph with enough fuel flattens to
exactly the descendants of that node (on duplicate-free, acyclic `A`). -/
theorem flatten_mkTree_perm (A : List CommentWithUser)
    (hN : (A.map (fun c => c.id)).Nodup)
    (hD : ∀ c ∈ A, (distOf A c.id).isSome) :
    ∀ (fuel : Nat) (c : CommentWithUser) (d : Nat), c ∈ A → distOf A c.id = some d →
      A.length ≤ fuel + d →
      (flattenCommentTree [mkTree (buildCommentMap A)
          (A.foldl (addComment (buildCommentMap A)) ⟨[], []⟩).childrenMap fuel c.id]).Perm
        (descList A c.id) := by
  intro fuel
  induction fuel with
  | zero =>
    intro c d hc hd hle
    have hlt : d < A.length := rootDistB_lt A A.length c.id d hd
    omega
  | succ fuel ih =>
    intro c d hc hd hle
    have hdata : (mapGet (buildCommentMap A) c.id).getD defaultComment = c := by
      rw [mapGet_buildCommentMap A hN, find?_id_self A hN c hc]
      rfl
    have hkids : childLookup
        (A.foldl (addComment (buildCommentMap A)) ⟨[], []⟩).childrenMap c.id =
        (A.filter (fun x => parentOf A x.id == some c.id)).map (fun x => x.id) := by
      rw [secondPass_children (buildCommentMap A) A ⟨[], []⟩ c.id]
      have h0 : childLookup (BuildState.mk [] []).childrenMap c.id = [] := rfl
      rw [h0, List.nil_append]
      exact congrArg (List.map (fun c => c.id))
        (List.filter_congr (fun x hx => attachesTo_eq_parentOf A hN x hx c.id))
    have hstep : mkTree (buildCommentMap A)
        (A.foldl (addComment (buildCommentMap A)) ⟨[], []⟩).childrenMap (fuel + 1) c.id =
        CommentTree.mk c
          (((A.filter (fun x => parentOf A x.id == some c.id)).map (fun x => x.id)).map
            (mkTree (buildCommentMap A)
              (A.foldl (addComment (buildCommentMap A)) ⟨[], []⟩).childrenMap fuel)) := by
      simp only [mkTree, hdata, hkids]
    rw [hstep]
    have hflat : flattenCommentTree [CommentTree.mk c
        (((A.filter (fun x => parentOf A x.id == some c.id)).map (fun x => x.id)).map
          (mkTree (buildCommentMap A)
            (A.foldl (addComment (buildCommentMap A)) ⟨[], []⟩).childrenMap fuel))] =
        c :: flattenCommentTree
          (((A.filter (fun x => parentOf A x.id == some c.id)).map (fun x => x.id)).map
            (mkTree (buildCommentMap A)
              (A.foldl (addComment (buildCommentMap A)) ⟨[], []⟩).childrenMap fuel)) := by
      simp [flattenCommentTree]
    rw [hflat, List.map_map, flatten_map_flatMap]
    refine List.Perm.trans (List.Perm.cons c ?_) (desc_partition A hN hD c hc).symm
    refine flatMap_perm_congr _ _ _ ?_
    intro x hx
    obtain ⟨hxA, hxp⟩ := List.mem_filter.1 hx
    have hxp' : parentOf A x.id = some c.id := by simpa using hxp
    have hxd : distOf A x.id = some (d + 1) :=
      dist_of_child A x.id c.id d hxp' (hD x hxA) hd
    simpa [Function.comp] using ih x (d + 1) hxA hxd (by omega)

/-- On well-formed input, flattening the built tree is a permutation of
the approved comments. -/
theorem flatten_build_perm (l : List CommentWithUser) (hW : wellFormedForest l) :
    (flattenCommentTree (buildCommentTree l)).Perm (filterApprovedComments l) := by
  obtain ⟨hN, hD⟩ := hW
  have hbuild : buildCommentTree l =
      ((filterApprovedComments l).foldl
          (addComment (buildCommentMap (filterApprovedComments l))) ⟨[], []⟩).rootIds.map
        (mkTree (buildCommentMap (filterApprovedComments l))
          ((filterApprovedComments l).foldl
            (addComment (buildCommentMap (filterApprovedComments l))) ⟨[], []⟩).childrenMap
          (l.length + 1)) := rfl
  rw [hbuild,
    secondPass_rootIds (buildCommentMap (filterApprovedComments l))
      (filterApprovedComments l) ⟨[], []⟩,
    show (BuildState.mk [] []).rootIds = [] from rfl, List.nil_append,
    List.filter_congr
      (fun x hx => isRootPush_eq_parentOf (filterApprovedComments l) hN x hx),
    List.map_map, flatten_map_flatMap]
  refine List.Perm.trans (flatMap_perm_congr _ _ _ ?_)
    (roots_flatMap_desc_perm (filterApprovedComments l) hN hD)
  intro r hr
  obtain ⟨hrA, hrp⟩ := List.mem_filter.1 hr
  have hrp' : parentOf (filterApprovedComments l) r.id = none := by simpa using hrp
  have hlen : 0 < (filterApprovedComments l).length :=
    List.length_pos.2 (fun h => by rw [h] at hrA; cases hrA)
  have hrd : distOf (filterApprovedComments l) r.id = some 0 :=
    distOf_root (filterApprovedComments l) r.id hrp' hlen
  have hbound : (filterApprovedComments l).length ≤ (l.length + 1) + 0 := by
    have := List.length_filter_le (fun c => c.status == CommentStatus.approved) l
    simpa [filterApprovedComments] using by omega
  simpa [Function.comp] using
    flatten_mkTree_perm (filterApprovedComments l) hN hD (l.length + 1) r 0 hrA hrd hbound

/-- Counting a forest splits off the head tree. -/
theorem count_cons_split (t : CommentTree) (ts : List CommentTree) :
    countTreeComments (t :: ts) = countTreeComments [t] + countTreeComments ts := by
  cases t with
  | mk a cs =>
    simp [countTreeComments]

/-- Counting an unfolded forest agrees with the length of its preorder
flattening. -/
theorem countTree_eq_flatten_length_mkTree (cm : List (Nat × CommentWithUser))
    (ch : List (Nat × List Nat)) :
    ∀ (fuel : Nat) (ids : List Nat),
      countTreeComments (ids.map (mkTree cm ch fuel)) =
        (flattenCommentTree (ids.map (mkTree cm ch fuel))).length := by
  intro fuel
  induction fuel with
  | zero =>
    intro ids
    induction ids with
    | nil => simp [countTreeComments, flattenCommentTree]
    | cons i is ih2 =>
      rw [List.map_cons, count_cons_split, flatten_cons_split, List.length_append, ih2]
      have hsingle : countTreeComments [mkTree cm ch 0 i] =
          (flattenCommentTree [mkTree cm ch 0 i]).length := by
        simp [mkTree, countTreeComments, flattenCommentTree]
      omega
  | succ fuel ih =>
    intro ids
    induction ids with
    | nil => simp [countTreeComments, flattenCommentTree]
    | cons i is ih2 =>
      rw [List.map_cons, count_cons_split, flatten_cons_split, List.length_append, ih2]
      have hsingle : countTreeComments [mkTree cm ch (fuel + 1) i] =
          (flattenCommentTree [mkTree cm ch (fuel + 1) i]).length := by
        simp only [mkTree, countTreeComments, flattenCommentTree]
        rw [ih (childLookup ch i)]
        simp only [List.length_cons, List.length_append, List.length_nil]
        omega
      omega

/-- Validation of a forest splits off the head tree. -/
theorem validate_cons_split (t : CommentTree) (ts : List CommentTree) :
    validateTreeOnlyApproved (t :: ts) =
      (validateTreeOnlyApproved [t] && validateTreeOnlyApproved ts) := by
  cases t with
  | mk a cs =>
    by_cases hst : a.status = CommentStatus.approved <;>
      simp [validateTreeOnlyApproved, hst, Bool.and_assoc]

/-- Every node of the unfolded graph whose ids come from the approved
list carries an approved comment, at every depth. -/
theorem validate_mkTree (l : List CommentWithUser)
    (hN : ((filterApprovedComments l).map (fun c => c.id)).Nodup) :
    ∀ (fuel : Nat) (ids : List Nat),
      (∀ i ∈ ids, ∃ c ∈ filterApprovedComments l, c.id = i) →
      validateTreeOnlyApproved (ids.map
        (mkTree (buildCommentMap (filterApprovedComments l))
          ((filterApprovedComments l).foldl
            (addComment (buildCommentMap (filterApprovedComments l))) ⟨[], []⟩).childrenMap
          fuel)) = true := by
  intro fuel
  induction fuel with
  | zero =>
    intro ids hids
    induction ids with
    | nil => simp [validateTreeOnlyApproved]
    | cons i is ih2 =>
      obtain ⟨c, hcA, hcid⟩ := hids i (List.mem_cons_self _ _)
      have hdata : (mapGet (buildCommentMap (filterApprovedComments l)) i).getD
          defaultComment = c := by
        rw [mapGet_buildCommentMap _ hN, ← hcid, find?_id_self _ hN c hcA]
        rfl
      have hst : c.status = CommentStatus.approved := by
        have := (List.mem_filter.1 hcA).2
        simpa using this
      rw [List.map_cons, validate_cons_split,
        ih2 (fun j hj => hids j (List.mem_cons_of_mem _ hj))]
      have hsingle : validateTreeOnlyApproved
          [mkTree (buildCommentMap (filterApprovedComments l))
            ((filterApprovedComments l).foldl
              (addComment (buildCommentMap (filterApprovedComments l))) ⟨[], []⟩).childrenMap
            0 i] = true := by
        rw [show mkTree (buildCommentMap (filterApprovedComments l))
            ((filterApprovedComments l).foldl
              (addComment (buildCommentMap (filterApprovedComments l))) ⟨[], []⟩).childrenMap
            0 i =
          CommentTree.mk ((mapGet (buildCommentMap (filterApprovedComments l)) i).getD
            defaultComment) [] from rfl, hdata]
        simp [validateTreeOnlyApproved, hst]
      rw [hsingle]
      rfl
  | succ fuel ih =>
    intro ids hids
    induction ids with
    | nil => simp [validateTreeOnlyApproved]
    | cons i is ih2 =>
      obtain ⟨c, hcA, hcid⟩ := hids i (List.mem_cons_self _ _)
      have hdata : (mapGet (buildCommentMap (filterApprovedComments l)) i).getD
          defaultComment = c := by
        rw [mapGet_buildCommentMap _ hN, ← hcid, find?_id_self _ hN c hcA]
        rfl
      have hst : c.status = CommentStatus.approved := by
        have := (List.mem_filter.1 hcA).2
        simpa using this
      have hkids : ∀ j ∈ childLookup
          ((filterApprovedComments l).foldl
            (addComment (buildCommentMap (filterApprovedComments l))) ⟨[], []⟩).childrenMap i,
          ∃ d ∈ filterApprovedComments l, d.id = j := by
        intro j hj
        rw [secondPass_children (buildCommentMap (filterApprovedComments l))
          (filterApprovedComments l) ⟨[], []⟩ i] at hj
        rw [show childLookup (BuildState.mk [] []).childrenMap i = [] from rfl,
          List.nil_append] at hj
        obtain ⟨d, hd, hdj⟩ := List.mem_map.1 hj
        exact ⟨d, List.mem_of_mem_filter hd, hdj⟩
      rw [List.map_cons, validate_cons_split,
        ih2 (fun j hj => hids j (List.mem_cons_of_mem _ hj))]
      have hsingle : validateTreeOnlyApproved
          [mkTree (buildCommentMap (filterApprovedComments l))
            ((filterApprovedComments l).foldl
              (addComment (buildCommentMap (filterApprovedComments l))) ⟨[], []⟩).childrenMap
            (fuel + 1) i] = true := by
        rw [show mkTree (buildCommentMap (filterApprovedComments l))
            ((filterApprovedComments l).foldl
              (addComment (buildCommentMap (filterApprovedComments l))) ⟨[], []⟩).childrenMap
            (fuel + 1) i =
          CommentTree.mk ((mapGet (buildCommentMap (filterApprovedComments l)) i).getD
            defaultComment)
            ((childLookup ((filterApprovedComments l).foldl
              (addComment (buildCommentMap (filterApprovedComments l))) ⟨[], []⟩).childrenMap
              i).map
              (mkTree (buildCommentMap (filterApprovedComments l))
                ((filterApprovedComments l).foldl
                  (addComment (buildCommentMap (filterApprovedComments l)))
                  ⟨[], []⟩).childrenMap fuel)) from rfl, hdata]
        have hkidsval := ih _ hkids
        simp only [validateTreeOnlyApproved, hst]
        simp only [ne_eq, not_true_eq_false, if_false]
        rw [hkidsval]
        simp [validateTreeOnlyApproved]
      rw [hsingle]
      rfl

/-- C7 (amended): for every flat comment list whose approved comments have
pairwise-distinct ids and acyclic parent links, every node of
`buildCommentTree` at every depth is approved, and `countTreeComments` of
the built tree equals the number of approved comments in the list. -/
theorem buildCommentTree_approved_and_count (l : List CommentWithUser)
    (hW : wellFormedForest l) :
    validateTreeOnlyApproved (buildCommentTree l) = true ∧
    countTreeComments (buildCommentTree l) = (filterApprovedComments l).length := by
  obtain ⟨hN, hD⟩ := hW
  have hbuild : buildCommentTree l =
      ((filterApprovedComments l).foldl
          (addComment (buildCommentMap (filterApprovedComments l))) ⟨[], []⟩).rootIds.map
        (mkTree (buildCommentMap (filterApprovedComments l))
          ((filterApprovedComments l).foldl
            (addComment (buildCommentMap (filterApprovedComments l))) ⟨[], []⟩).childrenMap
          (l.length + 1)) := rfl
  constructor
  · rw [hbuild]
    refine validate_mkTree l hN (l.length + 1) _ ?_
    intro i hi
    rw [secondPass_rootIds (buildCommentMap (filterApprovedComments l))
      (filterApprovedComments l) ⟨[], []⟩,
      show (BuildState.mk [] []).rootIds = [] from rfl, List.nil_append] at hi
    obtain ⟨c, hc, hcid⟩ := List.mem_map.1 hi
    exact ⟨c, List.mem_of_mem_filter hc, hcid⟩
  · have h1 : countTreeComments (buildCommentTree l) =
        (flattenCommentTree (buildCommentTree l)).length := by
      rw [hbuild]
      exact countTree_eq_flatten_length_mkTree _ _ _ _
    rw [h1, (flatten_build_perm l ⟨hN, hD⟩).length_eq]

/-- Witness for the amended C7 at a concrete input: a two-level approved
thread plus one pending comment. -/
theorem buildCommentTree_approved_and_count_witness :
    validateTreeOnlyApproved (buildCommentTree
      [⟨1, none, 10, "a", CommentStatus.approved⟩,
       ⟨2, some 1, 11, "b", CommentStatus.approved⟩,
       ⟨3, some 2, 11, "c", CommentStatus.pending⟩]) = true ∧
    countTreeComments (buildCommentTree
      [⟨1, none, 10, "a", CommentStatus.approved⟩,
       ⟨2, some 1, 11, "b", CommentStatus.approved⟩,
       ⟨3, some 2, 11, "c", CommentStatus.pending⟩]) =
      (filterApprovedComments
        [⟨1, none, 10, "a", CommentStatus.approved⟩,
         ⟨2, some 1, 11, "b", CommentStatus.approved⟩,
         ⟨3, some 2, 11, "c", CommentStatus.pending⟩]).length :=
  buildCommentTree_approved_and_count _ (by decide)

/-- C8 (amended): for every flat comment list whose approved comments have
pairwise-distinct ids and acyclic parent links,
`flattenCommentTree (buildCommentTree list)` is a permutation of the
approved subset of the list — the same full records (ids, content,
userId), none dropped, none duplicated. -/
theorem flatten_buildCommentTree_roundtrip (l : List CommentWithUser)
    (hW : wellFormedForest l) :
    (flattenCommentTree (buildCommentTree l)).Perm (filterApprovedComments l) :=
  flatten_build_perm l hW

/-- Witness for the amended C8 at a concrete input: a root with two
children, one orphaned comment and one rejected comment. -/
theorem flatten_buildCommentTree_roundtrip_witness :
    (flattenCommentTree (buildCommentTree
      [⟨1, none, 20, "root", CommentStatus.approved⟩,
       ⟨2, some 1, 21, "re", CommentStatus.approved⟩,
       ⟨3, some 1, 22, "re2", CommentStatus.approved⟩,
       ⟨4, some 9, 23, "orphan", CommentStatus.approved⟩,
       ⟨5, none, 24, "bad", CommentStatus.rejected⟩])).Perm
      (filterApprovedComments
        [⟨1, none, 20, "root", CommentStatus.approved⟩,
         ⟨2, some 1, 21, "re", CommentStatus.approved⟩,
         ⟨3, some 1, 22, "re2", CommentStatus.approved⟩,
         ⟨4, some 9, 23, "orphan", CommentStatus.approved⟩,
         ⟨5, none, 24, "bad", CommentStatus.rejected⟩]) :=
  flatten_buildCommentTree_roundtrip _ (by decide)
